import Mathlib

/-!
Shallow embedding of the koradar trace-database core (src/core/src/db.rs,
src/core/src/cfg.rs, src/server/src/main.rs) together with proofs about its
documented behaviour.

Machine integers are modelled as `Nat` with explicit reduction modulo `2 ^ 64`
(u64) or `2 ^ 32` (u32) exactly where the Rust code can overflow (release-mode
wrapping semantics).  `DashMap` / `HashMap` containers are modelled as
association lists (lookup by the first matching key, insert-or-update in
place); `HashSet`s of integers are modelled as `Finset Nat`.  The capstone
disassembler backend is an external C library, not part of this repository;
wherever its output feeds an algorithm it is a parameter of the embedding and
the theorems hold for every possible backend behaviour.
-/

/-- Change flag constant `IS_VALID` from db.rs. -/
def IS_VALID : Nat := 0x80000000

/-- Change flag constant `IS_WRITE` from db.rs. -/
def IS_WRITE : Nat := 0x40000000

/-- Change flag constant `IS_MEM` from db.rs. -/
def IS_MEM : Nat := 0x20000000

/-- Change flag constant `IS_START` from db.rs. -/
def IS_START : Nat := 0x10000000

/-- Change flag constant `IS_SYSCALL` from db.rs. -/
def IS_SYSCALL : Nat := 0x08000000

/-- Low-byte size mask `SIZE_MASK` from db.rs. -/
def SIZE_MASK : Nat := 0xFF

/-- `bitflags` containment test for a single-bit flag:
`ChangeFlags::from_bits_truncate(flags).contains(bit)`. -/
def hasFlag (flags bit : Nat) : Bool := flags &&& bit == bit

/-- One record of the change log (`struct Change` in db.rs).  All four fields
are machine integers in the source (`u64`, `u64`, `u32`, `u32`). -/
structure Change where
  address : Nat
  data : Nat
  clnum : Nat
  flags : Nat
deriving DecidableEq, Repr

/-- Per-byte memory cell (`struct MemoryCell` in db.rs): optional static
initializer and the ordered `(clnum, byte)` write history. -/
structure MemoryCell where
  static_value : Option Nat := none
  history : List (Nat × Nat) := []
deriving DecidableEq, Repr

/-- Model of Rust `slice::partition_point`: the index of the first element not
satisfying the predicate.  Rust documents the result only for partitioned
slices, where its binary search coincides with the length of the satisfying
prefix. -/
def partitionPoint {α : Type} (p : α → Bool) (l : List α) : Nat :=
  (l.takeWhile p).length

/-- `MemoryCell::get_value_at` (db.rs lines 42-49). -/
def MemoryCell.get_value_at (cell : MemoryCell) (clnum : Nat) : Option Nat :=
  let idx := partitionPoint (fun p => p.1 ≤ clnum) cell.history
  if idx = 0 then cell.static_value
  else (cell.history.get? (idx - 1)).map Prod.snd

/-- Association-list lookup, modelling `DashMap::get` / `HashMap::get`. -/
def alookup {κ α : Type} [BEq κ] (m : List (κ × α)) (k : κ) : Option α :=
  (m.find? (fun p => p.1 == k)).map Prod.snd

/-- Association-list entry update, modelling
`map.entry(k).or_default()` followed by a mutation `f` of the entry
(`d` is the `Default` value used when the key is absent). -/
def aupdate {κ α : Type} [BEq κ] (m : List (κ × α)) (k : κ) (f : α → α) (d : α) :
    List (κ × α) :=
  match m with
  | [] => [(k, f d)]
  | (k', v) :: rest =>
      if k' == k then (k', f v) :: rest else (k', v) :: aupdate rest k f d

/-- Association-list insert-or-overwrite, modelling `map.insert(k, v)`. -/
def ainsert {κ α : Type} [BEq κ] (m : List (κ × α)) (k : κ) (v : α) :
    List (κ × α) :=
  match m with
  | [] => [(k, v)]
  | (k', v') :: rest =>
      if k' == k then (k', v) :: rest else (k', v') :: ainsert rest k v

/-- The in-memory trace database (`struct TraceDB` in db.rs).  Locks and the
capstone handle carry no data and are dropped; concurrent maps become
association lists. -/
structure TraceDB where
  changes : List Change
  memory : List (Nat × MemoryCell)
  registers : List (List (Nat × Nat))
  access_index : List ((Nat × Nat) × List Nat)
  instructions : List (Nat × List Nat)
  instructions_disasm : List (Nat × String)
  user_code_ranges : List (Nat × Nat)
  entry_point : Option Nat
  bias : Int
deriving Repr

/-- `TraceDB::new(reg_count)` (db.rs lines 77-97). -/
def TraceDB.new (reg_count : Nat) : TraceDB where
  changes := []
  memory := []
  registers := List.replicate reg_count []
  access_index := []
  instructions := []
  instructions_disasm := []
  user_code_ranges := []
  entry_point := none
  bias := 0

/-- The i-th little-endian byte of a change payload: value of `data & 0xFF`
after `i` iterations of `data >>= 8` in the memory-write unpacking loop. -/
def byteAt (data i : Nat) : Nat := (data >>> (8 * i)) &&& 0xFF

/-- Byte width of a memory write: `(flags & SIZE_MASK) / 8`. -/
def memWriteSize (flags : Nat) : Nat := (flags &&& SIZE_MASK) / 8

/-- One iteration of the memory-write unpacking loop of `TraceDB::add_change`
(db.rs lines 220-230): push the i-th little-endian payload byte onto the
history of the cell at `address + i` (u64 address arithmetic wraps). -/
def memWriteApply (change : Change) (db : TraceDB) (i : Nat) : TraceDB :=
  let addr := (change.address + i) % 2 ^ 64
  let byte := byteAt change.data i
  { db with
    memory := aupdate db.memory addr
      (fun cell => { cell with history := cell.history ++ [(change.clnum, byte)] })
      {} }

/-- `TraceDB::add_change` (db.rs lines 205-251): append to the raw log, unpack
memory writes into per-byte history entries, append register writes when the
derived index is in bounds, and record the change in the reverse access index
under type byte 87 = b'W' or 82 = b'R'. -/
def TraceDB.add_change (db : TraceDB) (change : Change) : TraceDB :=
  let db := { db with changes := db.changes ++ [change] }
  let db :=
    if hasFlag change.flags IS_MEM then
      if hasFlag change.flags IS_WRITE then
        (List.range (memWriteSize change.flags)).foldl (memWriteApply change) db
      else db
    else if hasFlag change.flags IS_WRITE then
      let reg_idx := change.address / 8
      match db.registers.get? reg_idx with
      | some h =>
          { db with registers := db.registers.set reg_idx (h ++ [(change.clnum, change.data)]) }
      | none => db
    else db
  let type_char : Nat := if hasFlag change.flags IS_WRITE then 87 else 82
  { db with
    access_index := aupdate db.access_index (change.address, type_char)
      (fun l => l ++ [change.clnum]) [] }

/-- `TraceDB::get_memory_at` (db.rs lines 253-265). -/
def TraceDB.get_memory_at (db : TraceDB) (clnum addr size : Nat) : List Nat :=
  (List.range size).map (fun i =>
    let a := (addr + i) % 2 ^ 64
    (((alookup db.memory a).bind (fun cell => cell.get_value_at clnum)).getD 0))

/-- Point-in-time lookup of one register history, the body of the closure in
`TraceDB::get_registers_at` (db.rs lines 269-278). -/
def regValueAt (history : List (Nat × Nat)) (clnum : Nat) : Nat :=
  let idx := partitionPoint (fun p => p.1 ≤ clnum) history
  if idx = 0 then 0
  else ((history.get? (idx - 1)).map Prod.snd).getD 0

/-- `TraceDB::get_registers_at` (db.rs lines 267-279). -/
def TraceDB.get_registers_at (db : TraceDB) (clnum : Nat) : List Nat :=
  db.registers.map (fun h => regValueAt h clnum)

/-- History of the memory cell at address `a` (empty when the cell is absent). -/
def memHistoryAt (db : TraceDB) (a : Nat) : List (Nat × Nat) :=
  ((alookup db.memory a).map MemoryCell.history).getD []

/-- Static initializer of the memory cell at address `a`. -/
def memStaticAt (db : TraceDB) (a : Nat) : Option Nat :=
  (alookup db.memory a).bind MemoryCell.static_value

/-- Claim-side description of `memory_at(c, a, 1)`: the byte of the latest
recorded write with clnum ≤ c, else the static initializer, else 0. -/
def specMemByte (db : TraceDB) (c a : Nat) : Nat :=
  match ((memHistoryAt db a).filter (fun p => p.1 ≤ c)).getLast? with
  | some p => p.2
  | none => (memStaticAt db a).getD 0

/-- History of register `r` (empty when `r` is out of range). -/
def regHistoryAt (db : TraceDB) (r : Nat) : List (Nat × Nat) :=
  (db.registers.get? r).getD []

/-- Claim-side description of `registers_at(c)[r]`: the value of the latest
recorded write to register `r` with clnum ≤ c, else 0. -/
def specRegVal (db : TraceDB) (c r : Nat) : Nat :=
  match ((regHistoryAt db r).filter (fun p => p.1 ≤ c)).getLast? with
  | some p => p.2
  | none => 0

/-- A history is sorted when its clnums are strictly increasing (the documented
invariant of memory-cell and register histories). -/
abbrev HistSorted (l : List (Nat × Nat)) : Prop :=
  List.Pairwise (fun p q => p.1 < q.1) l

lemma filter_le_eq_nil_of_gt {c : Nat} {l : List (Nat × Nat)}
    (h : ∀ p ∈ l, ¬ p.1 ≤ c) :
    l.filter (fun p => p.1 ≤ c) = [] := by
  induction l with
  | nil => rfl
  | cons x xs ih =>
      have hx := h x (List.mem_cons_self x xs)
      simp only [List.filter_cons, decide_eq_true_eq]
      rw [if_neg hx]
      exact ih (fun p hp => h p (List.mem_cons_of_mem x hp))

/-- Core lookup lemma: on a sorted history, `get_value_at` returns the value of
the last entry with clnum ≤ c, else the static value. -/
lemma get_value_at_sorted (s : Option Nat) (l : List (Nat × Nat)) (c : Nat)
    (hs : HistSorted l) :
    MemoryCell.get_value_at ⟨s, l⟩ c =
      (match (l.filter (fun p => p.1 ≤ c)).getLast? with
       | some p => some p.2
       | none => s) := by
  induction l generalizing s with
  | nil => simp [MemoryCell.get_value_at, partitionPoint]
  | cons x xs ih =>
      rcases List.pairwise_cons.mp hs with ⟨hx, hxs⟩
      by_cases hP : x.1 ≤ c
      · have hleft :
            MemoryCell.get_value_at ⟨s, x :: xs⟩ c =
              MemoryCell.get_value_at ⟨some x.2, xs⟩ c := by
          simp only [MemoryCell.get_value_at, partitionPoint, List.takeWhile_cons,
            decide_eq_true_eq]
          rw [if_pos hP]
          simp only [List.length_cons]
          rcases Nat.eq_zero_or_pos (xs.takeWhile (fun p => p.1 ≤ c)).length with h0 | hpos
          · simp [h0]
          · have h1 : (xs.takeWhile (fun p => p.1 ≤ c)).length + 1 ≠ 0 := by omega
            rw [if_neg h1, if_neg (Nat.pos_iff_ne_zero.mp hpos)]
            have : (xs.takeWhile (fun p => p.1 ≤ c)).length + 1 - 1 =
                ((xs.takeWhile (fun p => p.1 ≤ c)).length - 1) + 1 := by omega
            rw [this]
            simp
        rw [hleft, ih (some x.2) hxs]
        have hfilter : (x :: xs).filter (fun p => p.1 ≤ c) =
            x :: xs.filter (fun p => p.1 ≤ c) := by
          simp [List.filter_cons, hP]
        rw [hfilter]
        cases hfe : xs.filter (fun p => p.1 ≤ c) with
        | nil => rfl
        | cons y ys =>
            obtain ⟨z, hz⟩ : ∃ z, (y :: ys).getLast? = some z := by
              clear hfe
              induction ys generalizing y with
              | nil => exact ⟨y, rfl⟩
              | cons a as ih2 => exact ih2 a
            rw [hz, show (x :: y :: ys).getLast? = some z from hz]
      · have htw : ((x :: xs).takeWhile (fun p => p.1 ≤ c)) = [] := by
          simp [List.takeWhile_cons, hP]
        have hfx : ∀ p ∈ xs, ¬ p.1 ≤ c := by
          intro p hp
          have := hx p hp
          omega
        have hfilter : (x :: xs).filter (fun p => p.1 ≤ c) = [] := by
          simp only [List.filter_cons, decide_eq_true_eq]
          rw [if_neg hP]
          exact filter_le_eq_nil_of_gt hfx
        simp [MemoryCell.get_value_at, partitionPoint, htw, hfilter]

lemma regValueAt_eq_get_value_at (l : List (Nat × Nat)) (c : Nat) :
    regValueAt l c = (MemoryCell.get_value_at ⟨some 0, l⟩ c).getD 0 := by
  simp only [regValueAt, MemoryCell.get_value_at]
  by_cases h : partitionPoint (fun p => p.1 ≤ c) l = 0
  · simp [h]
  · rw [if_neg h, if_neg h]

/-- C1 claim theorem, see below. -/
lemma regValueAt_sorted (l : List (Nat × Nat)) (c : Nat) (hs : HistSorted l) :
    regValueAt l c =
      (match (l.filter (fun p => p.1 ≤ c)).getLast? with
       | some p => p.2
       | none => 0) := by
  rw [regValueAt_eq_get_value_at, get_value_at_sorted (some 0) l c hs]
  cases (l.filter (fun p => p.1 ≤ c)).getLast? <;> rfl

/-- C1: for every clnum `c` and byte address `a` (a u64 value), provided the
cell's write history is sorted by clnum (the documented invariant, maintained
by in-order ingest), `get_memory_at(c, a, 1)` returns exactly one byte: the
byte of the latest recorded write to `a` with clnum ≤ c; if no such write
exists, the static initializer byte; if there is none either, 0. -/
theorem claim_C1_get_memory_at_byte (db : TraceDB) (c a : Nat)
    (ha : a < 2 ^ 64) (hs : HistSorted (memHistoryAt db a)) :
    db.get_memory_at c a 1 = [specMemByte db c a] := by
  have h1 : List.range 1 = [0] := rfl
  simp only [TraceDB.get_memory_at, h1, List.map_cons, List.map_nil]
  have haddr : (a + 0) % 2 ^ 64 = a := by
    rw [Nat.add_zero]; exact Nat.mod_eq_of_lt ha
  rw [haddr]
  congr 1
  rcases hcell : alookup db.memory a with _ | cell
  · simp only [specMemByte, memHistoryAt, memStaticAt, hcell, Option.map_none,
      Option.getD_none, Option.bind_none, Option.none_bind]
    simp
  · have hhist : memHistoryAt db a = cell.history := by
      simp [memHistoryAt, hcell]
    have hstat : memStaticAt db a = cell.static_value := by
      simp [memStaticAt, hcell]
    have hcell' : cell = ⟨cell.static_value, cell.history⟩ := rfl
    rw [hhist] at hs
    simp only [hcell, Option.some_bind]
    rw [hcell', get_value_at_sorted _ _ _ hs]
    simp only [specMemByte, hhist, hstat]
    cases (cell.history.filter (fun p => p.1 ≤ c)).getLast? <;> rfl

/-- Witness for C1 on the spec's memory-reconstruction scenario: static byte
0xAA at 0x400, writes 0xBB at clnum 5 and 0xCC at clnum 9, queried at clnum 8. -/
theorem claim_C1_witness :
    (TraceDB.get_memory_at
        { TraceDB.new 16 with
          memory := [(0x400, ⟨some 0xAA, [(5, 0xBB), (9, 0xCC)]⟩)] } 8 0x400 1 =
      [specMemByte
        { TraceDB.new 16 with
          memory := [(0x400, ⟨some 0xAA, [(5, 0xBB), (9, 0xCC)]⟩)] } 8 0x400]) ∧
    specMemByte
        { TraceDB.new 16 with
          memory := [(0x400, ⟨some 0xAA, [(5, 0xBB), (9, 0xCC)]⟩)] } 8 0x400 = 0xBB :=
  ⟨claim_C1_get_memory_at_byte _ 8 0x400 (by norm_num) (by decide),
   by decide⟩

/-- C2: for every clnum `c` and register index `r < N`, provided register `r`'s
history is sorted by clnum (the documented invariant), `get_registers_at(c)[r]`
is the value of the latest recorded write to `r` with clnum ≤ c, and 0 when no
such write exists. -/
theorem claim_C2_get_registers_at (db : TraceDB) (c r : Nat)
    (hr : r < db.registers.length) (hs : HistSorted (regHistoryAt db r)) :
    (db.get_registers_at c).get? r = some (specRegVal db c r) := by
  have hget : db.registers.get? r = some (regHistoryAt db r) := by
    simp only [regHistoryAt]
    rcases h : db.registers.get? r with _ | l
    · exact absurd (List.get?_eq_none.mp h) (by omega)
    · rfl
  have hmap : (db.get_registers_at c).get? r =
      some (regValueAt (regHistoryAt db r) c) := by
    rw [TraceDB.get_registers_at, List.get?_map, hget, Option.map_some']
  rw [hmap, regValueAt_sorted _ _ hs]
  simp only [specRegVal]

/-- Witness for C2: register 2 with writes (1, 7) and (4, 9), queried at
clnum 3 — yields 7; also checks the out-of-history default through register 0. -/
theorem claim_C2_witness :
    (TraceDB.get_registers_at
        { TraceDB.new 3 with registers := [[], [], [(1, 7), (4, 9)]] } 3).get? 2 =
      some (specRegVal
        { TraceDB.new 3 with registers := [[], [], [(1, 7), (4, 9)]] } 3 2) ∧
    specRegVal { TraceDB.new 3 with registers := [[], [], [(1, 7), (4, 9)]] } 3 2 = 7 :=
  ⟨claim_C2_get_registers_at _ 3 2 (by decide) (by decide),
   by decide⟩

lemma alookup_cons_pos {κ α : Type} [BEq κ] (k₀ : κ) (v : α)
    (rest : List (κ × α)) (k' : κ) (h : (k₀ == k') = true) :
    alookup ((k₀, v) :: rest) k' = some v := by
  simp only [alookup]
  rw [List.find?_cons_of_pos _ (by simpa using h)]
  rfl

lemma alookup_cons_neg {κ α : Type} [BEq κ] (k₀ : κ) (v : α)
    (rest : List (κ × α)) (k' : κ) (h : (k₀ == k') = false) :
    alookup ((k₀, v) :: rest) k' = alookup rest k' := by
  simp only [alookup]
  rw [List.find?_cons_of_neg _ (by simp [h])]

lemma alookup_aupdate_self {κ α : Type} [BEq κ] [LawfulBEq κ]
    (m : List (κ × α)) (k : κ) (f : α → α) (d : α) :
    alookup (aupdate m k f d) k = some (f ((alookup m k).getD d)) := by
  induction m with
  | nil =>
      simp only [aupdate]
      rw [alookup_cons_pos _ _ _ _ (by simp)]
      rfl
  | cons p rest ih =>
      obtain ⟨k₀, v⟩ := p
      by_cases h₀ : (k₀ == k) = true
      · simp only [aupdate, h₀, if_true]
        rw [alookup_cons_pos _ _ _ _ h₀, alookup_cons_pos _ _ _ _ h₀]
        rfl
      · have h₀' : (k₀ == k) = false := by simpa using h₀
        simp only [aupdate, h₀', Bool.false_eq_true, if_false]
        rw [alookup_cons_neg _ _ _ _ h₀', alookup_cons_neg _ _ _ _ h₀']
        exact ih

lemma alookup_aupdate_ne {κ α : Type} [BEq κ] [LawfulBEq κ]
    (m : List (κ × α)) (k k' : κ) (f : α → α) (d : α) (h : (k' == k) = false) :
    alookup (aupdate m k f d) k' = alookup m k' := by
  have hkk : (k == k') = false := by
    simp only [beq_eq_false_iff_ne, ne_eq] at h ⊢
    exact fun e => h e.symm
  induction m with
  | nil =>
      simp only [aupdate]
      rw [alookup_cons_neg _ _ _ _ hkk]
  | cons p rest ih =>
      obtain ⟨k₀, v⟩ := p
      by_cases h₀ : (k₀ == k) = true
      · have hk : k₀ = k := eq_of_beq h₀
        subst hk
        simp only [aupdate, BEq.refl, if_true]
        rw [alookup_cons_neg _ _ _ _ hkk, alookup_cons_neg _ _ _ _ hkk]
      · have h₀' : (k₀ == k) = false := by simpa using h₀
        simp only [aupdate, h₀', Bool.false_eq_true, if_false]
        by_cases h₁ : (k₀ == k') = true
        · rw [alookup_cons_pos _ _ _ _ h₁, alookup_cons_pos _ _ _ _ h₁]
        · have h₁' : (k₀ == k') = false := by simpa using h₁
          rw [alookup_cons_neg _ _ _ _ h₁', alookup_cons_neg _ _ _ _ h₁']
          exact ih

/-- The update applied to a cell's history by one unpacking iteration, seen
through `alookup`. -/
def pushCell (o : Option MemoryCell) (clnum byte : Nat) : MemoryCell :=
  let cell := o.getD {}
  { cell with history := cell.history ++ [(clnum, byte)] }

lemma memWriteFold_fields (change : Change) (db : TraceDB) (n : Nat) :
    ((List.range n).foldl (memWriteApply change) db).changes = db.changes ∧
    ((List.range n).foldl (memWriteApply change) db).registers = db.registers ∧
    ((List.range n).foldl (memWriteApply change) db).access_index = db.access_index := by
  induction n generalizing db with
  | zero => exact ⟨rfl, rfl, rfl⟩
  | succ n ih =>
      rw [List.range_succ, List.foldl_append]
      obtain ⟨h1, h2, h3⟩ := ih db
      exact ⟨h1, h2, h3⟩

lemma memWriteFold_frame (change : Change) (db : TraceDB) (n : Nat)
    (hn : change.address + n ≤ 2 ^ 64) (x : Nat)
    (hx : x < change.address ∨ change.address + n ≤ x) :
    alookup ((List.range n).foldl (memWriteApply change) db).memory x =
      alookup db.memory x := by
  induction n generalizing db with
  | zero => rfl
  | succ n ih =>
      rw [List.range_succ, List.foldl_append]
      simp only [List.foldl_cons, List.foldl_nil, memWriteApply]
      have haddr : (change.address + n) % 2 ^ 64 = change.address + n :=
        Nat.mod_eq_of_lt (by omega)
      rw [haddr]
      have hne : (x == change.address + n) = false := by
        simp only [beq_eq_false_iff_ne, ne_eq]
        omega
      rw [alookup_aupdate_ne _ _ _ _ _ hne]
      exact ih db (by omega) (by omega)

lemma memWriteFold_hit (change : Change) (db : TraceDB) (n : Nat)
    (hn : change.address + n ≤ 2 ^ 64) (i : Nat) (hi : i < n) :
    alookup ((List.range n).foldl (memWriteApply change) db).memory (change.address + i) =
      some (pushCell (alookup db.memory (change.address + i)) change.clnum
        (byteAt change.data i)) := by
  induction n generalizing db with
  | zero => omega
  | succ n ih =>
      rw [List.range_succ, List.foldl_append]
      simp only [List.foldl_cons, List.foldl_nil, memWriteApply]
      have haddr : (change.address + n) % 2 ^ 64 = change.address + n :=
        Nat.mod_eq_of_lt (by omega)
      rw [haddr]
      by_cases hlast : i = n
      · rw [hlast, alookup_aupdate_self,
          memWriteFold_frame change db n (by omega) (change.address + n)
            (Or.inr (by omega))]
        rfl
      · have hne : (change.address + i == change.address + n) = false := by
          simp only [beq_eq_false_iff_ne, ne_eq]
          omega
        rw [alookup_aupdate_ne _ _ _ _ _ hne]
        exact ih db (by omega) (by omega)

/-- C3: a memory-write change (WRITE and MEM flags set) with size field `s`
bits appends exactly `s/8` per-byte history entries, at addresses
`address .. address + s/8 - 1`; the entry for `address + i` carries the i-th
little-endian byte of the payload and the change's clnum, static initializers
are untouched, and no other memory cell changes.  (Hypothesis: the written
byte range does not wrap around the u64 address space.) -/
theorem claim_C3_mem_write_unpacks_bytes (db : TraceDB) (change : Change)
    (hw : hasFlag change.flags IS_WRITE = true)
    (hm : hasFlag change.flags IS_MEM = true)
    (hnw : change.address + memWriteSize change.flags ≤ 2 ^ 64) :
    (∀ i < memWriteSize change.flags,
        memHistoryAt (db.add_change change) (change.address + i) =
          memHistoryAt db (change.address + i) ++
            [(change.clnum, byteAt change.data i)] ∧
        memStaticAt (db.add_change change) (change.address + i) =
          memStaticAt db (change.address + i)) ∧
    (∀ a, a < change.address ∨ change.address + memWriteSize change.flags ≤ a →
        alookup (db.add_change change).memory a = alookup db.memory a) := by
  have hmem : (db.add_change change).memory =
      ((List.range (memWriteSize change.flags)).foldl (memWriteApply change)
        { db with changes := db.changes ++ [change] }).memory := by
    simp only [TraceDB.add_change, hm, hw, if_true]
  constructor
  · intro i hi
    have hhit := memWriteFold_hit change { db with changes := db.changes ++ [change] }
      (memWriteSize change.flags) hnw i hi
    constructor
    · simp only [memHistoryAt, hmem, hhit]
      cases halo : alookup db.memory (change.address + i) with
      | none => simp [pushCell, halo]
      | some cell => simp [pushCell, halo]
    · simp only [memStaticAt, hmem, hhit]
      cases halo : alookup db.memory (change.address + i) with
      | none => simp [pushCell, halo]
      | some cell => simp [pushCell, halo]
  · intro a ha
    rw [hmem]
    exact memWriteFold_frame change _ (memWriteSize change.flags) hnw a ha

/-- Witness for C3: a 32-bit write of 0xDDCCBBAA at address 0x100 and clnum 7
spawns four byte entries; checked here at offset 2 (byte 0xCC). -/
theorem claim_C3_witness :
    memHistoryAt ((TraceDB.new 16).add_change ⟨0x100, 0xDDCCBBAA, 7, 0x60000020⟩)
        (0x100 + 2) =
      memHistoryAt (TraceDB.new 16) (0x100 + 2) ++
        [(7, byteAt 0xDDCCBBAA 2)] ∧
    memWriteSize 0x60000020 = 4 ∧ byteAt 0xDDCCBBAA 2 = 0xCC :=
  ⟨((claim_C3_mem_write_unpacks_bytes (TraceDB.new 16) ⟨0x100, 0xDDCCBBAA, 7, 0x60000020⟩
      (by decide) (by decide) (by decide)).1 2 (by decide)).1,
   by decide, by decide⟩

/-- C10: a register-write change (WRITE set, MEM clear) whose derived register
index `address / 8` is at least the configured register count leaves every
register history unchanged (and, being a total function, cannot panic), while
the change is still appended to the raw change log and its clnum is recorded
in the reverse access index under type byte b'W'. -/
theorem claim_C10_out_of_range_register_write (db : TraceDB) (change : Change)
    (hw : hasFlag change.flags IS_WRITE = true)
    (hm : hasFlag change.flags IS_MEM = false)
    (hr : db.registers.length ≤ change.address / 8) :
    (db.add_change change).registers = db.registers ∧
    (db.add_change change).changes = db.changes ++ [change] ∧
    alookup (db.add_change change).access_index (change.address, 87) =
      some ((alookup db.access_index (change.address, 87)).getD [] ++ [change.clnum]) ∧
    (db.add_change change).memory = db.memory := by
  have hget : db.registers[change.address / 8]? = none := by
    rw [← List.get?_eq_getElem?]
    exact List.get?_eq_none.mpr hr
  simp [TraceDB.add_change, hm, hw, hget, alookup_aupdate_self]

/-- Witness for C10: one register-write change aimed at register index 20 of a
16-register database. -/
theorem claim_C10_witness :
    ((TraceDB.new 16).add_change ⟨160, 5, 3, 0x40000000⟩).registers =
      (TraceDB.new 16).registers ∧
    ((TraceDB.new 16).add_change ⟨160, 5, 3, 0x40000000⟩).changes =
      (TraceDB.new 16).changes ++ [⟨160, 5, 3, 0x40000000⟩] :=
  ⟨(claim_C10_out_of_range_register_write (TraceDB.new 16) ⟨160, 5, 3, 0x40000000⟩
      (by decide) (by decide) (by decide)).1,
   (claim_C10_out_of_range_register_write (TraceDB.new 16) ⟨160, 5, 3, 0x40000000⟩
      (by decide) (by decide) (by decide)).2.1⟩

lemma alookup_mem {κ α : Type} [BEq κ] [LawfulBEq κ] (m : List (κ × α)) (k : κ)
    (v : α) (h : alookup m k = some v) : (k, v) ∈ m := by
  simp only [alookup, Option.map_eq_some'] at h
  obtain ⟨p, hfind, hsnd⟩ := h
  have hmem := List.mem_of_find?_eq_some hfind
  have hkey := List.find?_some hfind
  obtain ⟨pk, pv⟩ := p
  simp only [decide_eq_true_eq] at hkey
  have hk : pk = k := by simpa using hkey
  have hv : pv = v := hsnd
  rw [← hk, ← hv]
  exact hmem

/-- Character class `[0-9a-fA-F]` of the stack-variable regexes. -/
def isHexDigitChar (ch : Char) : Bool :=
  (decide ('0' ≤ ch) && decide (ch ≤ '9')) ||
    (decide ('a' ≤ ch) && decide (ch ≤ 'f')) ||
    (decide ('A' ≤ ch) && decide (ch ≤ 'F'))

/-- Try to match the regex `\[rbp\s*<sign>\s*0x([0-9a-fA-F]+)\]` at the head of
the character list; on success return the captured hex digits and the
characters remaining after the match. -/
def matchRbp (sign : Char) (l : List Char) : Option (List Char × List Char) :=
  match l with
  | '[' :: 'r' :: 'b' :: 'p' :: rest =>
      let rest1 := rest.dropWhile (fun c => c.isWhitespace)
      match rest1 with
      | c :: rest2 =>
          if c = sign then
            let rest3 := rest2.dropWhile (fun c => c.isWhitespace)
            match rest3 with
            | '0' :: 'x' :: rest4 =>
                let ds := rest4.takeWhile isHexDigitChar
                let rest5 := rest4.dropWhile isHexDigitChar
                if ds = [] then none
                else
                  match rest5 with
                  | ']' :: rest6 => some (ds, rest6)
                  | _ => none
            | _ => none
          else none
      | [] => none
  | _ => none

/-- Left-to-right non-overlapping replacement of every `[rbp <sign> 0xN]`
match by `tag` ++ digits, modelling `Regex::replace_all`.  `fuel` bounds the
recursion; one more than the input length always suffices because a match
consumes at least one character. -/
def replaceRbpFuel (sign : Char) (tag : String) : Nat → List Char → List Char
  | 0, l => l
  | _ + 1, [] => []
  | fuel + 1, c :: rest =>
      match matchRbp sign (c :: rest) with
      | some (ds, rest') => tag.data ++ ds ++ replaceRbpFuel sign tag fuel rest'
      | none => c :: replaceRbpFuel sign tag fuel rest

/-- `TraceDB::resolve_stack_vars` (db.rs lines 327-344): rewrite
`[rbp - 0xN]` to `var_N`, then `[rbp + 0xN]` to `arg_N`. -/
def resolve_stack_vars (disasm : String) : String :=
  let l1 := replaceRbpFuel '-' "var_" (disasm.data.length + 1) disasm.data
  let l2 := replaceRbpFuel '+' "arg_" (l1.length + 1) l1
  String.mk l2

/-- The `"invalid"` error text is a fixed point of the stack-variable
prettifier. -/
lemma resolve_stack_vars_invalid : resolve_stack_vars "invalid" = "invalid" := by
  decide

/-- `TraceDB::disassemble` (db.rs lines 304-325).  The capstone backend
(`Disassembler::disassemble` in disasm.rs, a call into an external C library)
is a parameter returning either the rendered text or an error; `insn_cache` is
the `(address, bytes) -> text` memo map.  Only the returned string is
modelled: the cache insertion performed on a miss does not affect the value
returned to the caller. -/
def TraceDB.disassemble (insn_cache : List ((Nat × List Nat) × String))
    (backend : List Nat → Nat → Except Unit String)
    (address : Nat) (bytes : List Nat) : String :=
  if bytes = [] then "..."
  else
    match alookup insn_cache (address, bytes) with
    | some s => s
    | none =>
        resolve_stack_vars
          (match backend bytes address with
           | .ok s => s
           | .error _ => "invalid")

/-- A cache state is well formed when every memoized entry equals what the
miss path would compute for its key — the invariant maintained by
`disassemble`, which only inserts values it just computed. -/
def CacheWF (backend : List Nat → Nat → Except Unit String)
    (insn_cache : List ((Nat × List Nat) × String)) : Prop :=
  ∀ p ∈ insn_cache,
    p.2 = resolve_stack_vars
      (match backend p.1.2 p.1.1 with
       | .ok s => s
       | .error _ => "invalid")

/-- C7: for every address and byte sequence, `disassemble` returns the literal
`"..."` on empty input, and the literal `"invalid"` whenever the disassembler
backend fails on the (nonempty) input; the embedding is a total function, so
no error is ever raised to the caller.  The cache is assumed well formed (it
only ever holds values `disassemble` itself computed). -/
theorem claim_C7_disassemble_error_text
    (insn_cache : List ((Nat × List Nat) × String))
    (backend : List Nat → Nat → Except Unit String)
    (address : Nat) (bytes : List Nat)
    (hwf : CacheWF backend insn_cache) :
    (bytes = [] → TraceDB.disassemble insn_cache backend address bytes = "...") ∧
    (bytes ≠ [] → ∀ e : Unit, backend bytes address = .error e →
      TraceDB.disassemble insn_cache backend address bytes = "invalid") := by
  constructor
  · intro h
    simp [TraceDB.disassemble, h]
  · intro hne e herr
    simp only [TraceDB.disassemble, if_neg hne]
    cases hc : alookup insn_cache (address, bytes) with
    | none =>
        rw [herr]
        exact resolve_stack_vars_invalid
    | some s =>
        have hmem := alookup_mem insn_cache (address, bytes) s hc
        have hval := hwf _ hmem
        rw [herr] at hval
        have hval' : s = resolve_stack_vars "invalid" := hval
        show s = "invalid"
        rw [hval']
        exact resolve_stack_vars_invalid

/-- Witness for C7: an empty cache, a backend that always fails, one nonempty
input (yields "invalid") and the empty input (yields "..."). -/
theorem claim_C7_witness :
    TraceDB.disassemble [] (fun _ _ => Except.error ()) 0 [144] = "invalid" ∧
    TraceDB.disassemble [] (fun _ _ => Except.error ()) 0 [] = "..." :=
  ⟨(claim_C7_disassemble_error_text [] (fun _ _ => Except.error ()) 0 [144]
      (fun p hp => absurd hp (List.not_mem_nil p))).2 (by simp) () rfl,
   (claim_C7_disassemble_error_text [] (fun _ _ => Except.error ()) 0 []
      (fun p hp => absurd hp (List.not_mem_nil p))).1 rfl⟩

/-- u32 modulus. -/
def U32MOD : Nat := 4294967296

/-- u32::MAX, the largest representable clnum (and the slicing loop's
sentinel). -/
def U32MAX : Nat := 4294967295

/-- The `StepForward` handler (server main.rs line 276):
`(current + 1).min(max_clnum)` in u32 arithmetic (release-mode wrap). -/
def step_forward (current max_clnum : Nat) : Nat :=
  Nat.min ((current + 1) % U32MOD) max_clnum

/-- The `StepBackward` handler (server main.rs line 291):
`current.saturating_sub(1).max(1)`. -/
def step_backward (current : Nat) : Nat :=
  Nat.max (current - 1) 1

/-- C9 (amended): for every current clnum below u32::MAX, `StepForward`
responds at clnum `min(current + 1, max_clnum)` — covering current = 0,
current = 1 and current = max_clnum — and `StepBackward` responds at clnum
`max(current - 1, 1)` (saturating subtraction) for every current clnum,
covering current = 0 and current = 1.  At current = u32::MAX the StepForward
addition wraps to 0, so the claim's formula fails there (see the
counterexample). -/
theorem claim_C9_step_clamping (current max_clnum : Nat) (hc : current < U32MAX) :
    step_forward current max_clnum = Nat.min (current + 1) max_clnum ∧
    ∀ cur : Nat, step_backward cur = Nat.max (cur - 1) 1 := by
  constructor
  · have hlt : (current + 1) % U32MOD = current + 1 := by
      apply Nat.mod_eq_of_lt
      simp only [U32MAX] at hc
      simp only [U32MOD]
      omega
    simp [step_forward, hlt]
  · intro cur
    rfl

/-- C9 counterexample: at current = u32::MAX = 4294967295 and max_clnum = 1,
the code answers clnum 0 (the u32 addition wraps around), while the claim's
formula min(current + 1, max_clnum) demands 1 — so the claim fails at the
largest representable clnum that it explicitly includes. -/
theorem claim_C9_counterexample :
    step_forward 4294967295 1 = 0 ∧ Nat.min (4294967295 + 1) 1 = 1 := by
  constructor
  · decide
  · decide

/-- Witness for C9 at current = 5, max_clnum = 3 (beyond-max clamping) and a
backward step at current = 0 (lower boundary). -/
theorem claim_C9_witness :
    step_forward 5 3 = Nat.min (5 + 1) 3 ∧ step_backward 0 = Nat.max (0 - 1) 1 :=
  ⟨(claim_C9_step_clamping 5 3 (by decide)).1,
   (claim_C9_step_clamping 5 3 (by decide)).2 0⟩

/-- One parsed tracer event (`enum TraceEvent` as consumed by the ingest loop
in server main.rs, which also reads a `regs` snapshot from `InsnExec`); the
unused `vcpu_index` payloads are omitted. -/
inductive TraceEvent where
  | init
  | insnExec (pc : Nat) (bytes : List Nat) (disasm : Option String) (regs : List Nat)
  | memAccess (vaddr : Nat) (is_store : Bool) (value : Nat)
  | exitEvent
deriving DecidableEq, Repr

/-- `TraceDB::add_instruction` (db.rs lines 193-197). -/
def TraceDB.add_instruction (db : TraceDB) (clnum : Nat) (bytes : List Nat) :
    TraceDB :=
  if bytes ≠ [] then { db with instructions := ainsert db.instructions clnum bytes }
  else db

/-- `TraceDB::add_instruction_disasm` (db.rs lines 199-203). -/
def TraceDB.add_instruction_disasm (db : TraceDB) (clnum : Nat) (d : String) :
    TraceDB :=
  if d ≠ "" then
    { db with instructions_disasm := ainsert db.instructions_disasm clnum d }
  else db

/-- One register slot of `TraceDB::update_registers` (db.rs lines 288-301):
append only when the value differs from the last recorded one. -/
def pushIfChanged (h : List (Nat × Nat)) (clnum v : Nat) : List (Nat × Nat) :=
  match h.getLast? with
  | some p => if p.2 ≠ v then h ++ [(clnum, v)] else h
  | none => h ++ [(clnum, v)]

/-- `TraceDB::update_registers` (db.rs lines 281-302): pad the register table
to the snapshot length, then push each changed value. -/
def TraceDB.update_registers (db : TraceDB) (clnum : Nat) (new_regs : List Nat) :
    TraceDB :=
  let padded :=
    db.registers ++ List.replicate (new_regs.length - db.registers.length) []
  { db with
    registers := padded.enum.map (fun p =>
      match new_regs.get? p.1 with
      | some v => pushIfChanged p.2 clnum v
      | none => p.2) }

/-- i64 two's-complement wrap of an integer (`as i64` casts and release-mode
overflow). -/
def wrapI64 (x : Int) : Int := (x + 2 ^ 63) % 2 ^ 64 - 2 ^ 63

/-- The bias-estimation heuristic of the ingest loop (server main.rs lines
128-157), run on each `InsnExec`: page-offset match against the entry point,
preference for bias 0, and acceptance of nonzero candidates only below the
loader cut-off address. -/
def ingestBias (db : TraceDB) (pc : Nat) : TraceDB :=
  match db.entry_point with
  | none => db
  | some ep =>
      if pc &&& 0xFFF = ep &&& 0xFFF then
        let bias := wrapI64 (wrapI64 pc - wrapI64 ep)
        if db.bias = 0 ∧ bias ≠ 0 then
          if pc < 0x700000000000 then { db with bias := bias } else db
        else if bias = 0 ∧ db.bias ≠ 0 then { db with bias := 0 }
        else db
      else db

/-- Ingest-side server state: the database plus the clnum counter and the
`max_clnum` atomic mirrored to clients. -/
structure ServerState where
  db : TraceDB
  current_clnum : Nat
  max_clnum : Nat
deriving Repr

/-- Server state at startup (`TraceDB::new(16)`, counters at 0). -/
def ServerState.initial (reg_count : Nat) : ServerState :=
  ⟨TraceDB.new reg_count, 0, 0⟩

/-- Processing of one successfully parsed event by the ingest loop (server
main.rs lines 94-191): the u32 clnum counter is incremented and stored into
`max_clnum` for every parsed event; only `InsnExec` events touch the database
(bias estimation, instruction cache, register histories, one START change). -/
def ingestEvent (st : ServerState) (ev : TraceEvent) : ServerState :=
  let clnum := (st.current_clnum + 1) % U32MOD
  let st := { st with current_clnum := clnum, max_clnum := clnum }
  match ev with
  | .insnExec pc bytes disasm regs =>
      let db := ingestBias st.db pc
      let db := db.add_instruction clnum bytes
      let db := match disasm with
        | some d => db.add_instruction_disasm clnum d
        | none => db
      let db := if regs ≠ [] then db.update_registers clnum regs else db
      let db := db.add_change ⟨pc, 0, clnum, IS_VALID ||| IS_START⟩
      { st with db := db }
  | _ => st

/-- One line of the event stream: `none` models a line that fails to parse
(logged and skipped, the clnum counter not incremented). -/
def ingestLine (st : ServerState) (line : Option TraceEvent) : ServerState :=
  match line with
  | none => st
  | some ev => ingestEvent st ev

/-- The ingest loop over a finite stream (terminated by EOF). -/
def ingestStream (st : ServerState) (lines : List (Option TraceEvent)) :
    ServerState :=
  lines.foldl ingestLine st

/-- Number of successfully parsed lines. -/
def parsedCount (lines : List (Option TraceEvent)) : Nat :=
  (lines.filter Option.isSome).length

/-- Number of `InsnExec` events among the parsed lines. -/
def insnExecCount (lines : List (Option TraceEvent)) : Nat :=
  (lines.filter (fun l => match l with
    | some (.insnExec _ _ _ _) => true
    | _ => false)).length

/-- Change test for the START flag. -/
def isStartC (ch : Change) : Bool := hasFlag ch.flags IS_START

/-- Claim-side description of the START changes produced by ingesting `lines`
after `k` events have already been parsed: one change per `InsnExec`, in
receipt order, carrying its pc and the clnum assigned by the event counter. -/
def specStartChanges (k : Nat) : List (Option TraceEvent) → List Change
  | [] => []
  | none :: rest => specStartChanges k rest
  | some ev :: rest =>
      match ev with
      | .insnExec pc _ _ _ =>
          ⟨pc, 0, k + 1, IS_VALID ||| IS_START⟩ :: specStartChanges (k + 1) rest
      | _ => specStartChanges (k + 1) rest

lemma add_change_changes (db : TraceDB) (ch : Change) :
    (db.add_change ch).changes = db.changes ++ [ch] := by
  simp only [TraceDB.add_change]
  by_cases hmem : hasFlag ch.flags IS_MEM
  · by_cases hw : hasFlag ch.flags IS_WRITE
    · simp only [hmem, hw, if_true]
      exact (memWriteFold_fields ch _ _).1
    · simp [hmem, hw]
  · by_cases hw : hasFlag ch.flags IS_WRITE
    · simp only [hmem, hw, Bool.false_eq_true, if_false, if_true]
      cases db.registers.get? (ch.address / 8) <;> rfl
    · simp [hmem, hw]

lemma ingestBias_changes (db : TraceDB) (pc : Nat) :
    (ingestBias db pc).changes = db.changes := by
  simp only [ingestBias]
  cases db.entry_point with
  | none => rfl
  | some ep =>
      simp only
      split
      · split
        · split <;> rfl
        · split <;> rfl
      · rfl

lemma add_instruction_changes (db : TraceDB) (c : Nat) (bytes : List Nat) :
    (db.add_instruction c bytes).changes = db.changes := by
  simp only [TraceDB.add_instruction]
  split <;> rfl

lemma add_instruction_disasm_changes (db : TraceDB) (c : Nat) (d : String) :
    (db.add_instruction_disasm c d).changes = db.changes := by
  simp only [TraceDB.add_instruction_disasm]
  split <;> rfl

lemma ingestEvent_changes (st : ServerState) (ev : TraceEvent) :
    (ingestEvent st ev).db.changes =
      match ev with
      | .insnExec pc _ _ _ =>
          st.db.changes ++
            [⟨pc, 0, (st.current_clnum + 1) % U32MOD, IS_VALID ||| IS_START⟩]
      | _ => st.db.changes := by
  cases ev with
  | insnExec pc bytes disasm regs =>
      simp only [ingestEvent, add_change_changes]
      congr 1
      cases disasm with
      | none =>
          cases hre : regs == [] with
          | true =>
              simp only [beq_iff_eq] at hre
              simp [hre, add_instruction_changes, ingestBias_changes]
          | false =>
              simp only [beq_eq_false_iff_ne] at hre
              simp [hre, TraceDB.update_registers, add_instruction_changes,
                ingestBias_changes]
      | some d =>
          cases hre : regs == [] with
          | true =>
              simp only [beq_iff_eq] at hre
              simp [hre, add_instruction_disasm_changes, add_instruction_changes,
                ingestBias_changes]
          | false =>
              simp only [beq_eq_false_iff_ne] at hre
              simp [hre, TraceDB.update_registers, add_instruction_disasm_changes,
                add_instruction_changes, ingestBias_changes]
  | init => rfl
  | memAccess vaddr is_store value => rfl
  | exitEvent => rfl

lemma ingestStream_inv (lines : List (Option TraceEvent)) :
    ∀ st : ServerState,
      st.max_clnum = st.current_clnum →
      st.current_clnum + parsedCount lines < U32MOD →
      (ingestStream st lines).current_clnum = st.current_clnum + parsedCount lines ∧
      (ingestStream st lines).max_clnum = st.current_clnum + parsedCount lines ∧
      (ingestStream st lines).db.changes =
        st.db.changes ++ specStartChanges st.current_clnum lines := by
  induction lines with
  | nil =>
      intro st hmax _
      refine ⟨by simp [ingestStream, parsedCount], ?_, ?_⟩
      · simp [ingestStream, parsedCount, hmax]
      · simp [ingestStream, specStartChanges]
  | cons line rest ih =>
      intro st hmax hlt
      cases line with
      | none =>
          have hp : parsedCount (none :: rest) = parsedCount rest := by
            simp [parsedCount]
          have hstep : ingestStream st (none :: rest) = ingestStream st rest := rfl
          rw [hstep, hp]
          exact ih st hmax (by rw [hp] at hlt; exact hlt)
      | some ev =>
          have hp : parsedCount (some ev :: rest) = parsedCount rest + 1 := by
            simp [parsedCount]
          have hmod : (st.current_clnum + 1) % U32MOD = st.current_clnum + 1 := by
            apply Nat.mod_eq_of_lt
            rw [hp] at hlt
            omega
          have hstep : ingestStream st (some ev :: rest) =
              ingestStream (ingestEvent st ev) rest := rfl
          have hcur : (ingestEvent st ev).current_clnum = st.current_clnum + 1 := by
            cases ev <;> simp [ingestEvent, hmod]
          have hmax' : (ingestEvent st ev).max_clnum =
              (ingestEvent st ev).current_clnum := by
            cases ev <;> simp [ingestEvent]
          have hlt' : (ingestEvent st ev).current_clnum + parsedCount rest < U32MOD := by
            rw [hcur]
            rw [hp] at hlt
            omega
          obtain ⟨h1, h2, h3⟩ := ih (ingestEvent st ev) hmax' hlt'
          rw [hstep, hp]
          refine ⟨by rw [h1, hcur]; omega, by rw [h2, hcur]; omega, ?_⟩
          rw [h3, ingestEvent_changes, hcur]
          cases ev with
      | insnExec pc bytes disasm regs =>
          simp only [specStartChanges, hmod]
          rw [List.append_assoc]
          rfl
      | init => simp [specStartChanges]
      | memAccess vaddr is_store value => simp [specStartChanges]
      | exitEvent => simp [specStartChanges]

lemma isStartC_start_flags (pc k : Nat) :
    isStartC ⟨pc, 0, k, IS_VALID ||| IS_START⟩ = true := by
  simp [isStartC, hasFlag, IS_VALID, IS_START]
  decide

lemma specStartChanges_filter (l : List (Option TraceEvent)) :
    ∀ k, (specStartChanges k l).filter isStartC = specStartChanges k l := by
  induction l with
  | nil => intro k; rfl
  | cons line rest ih =>
      intro k
      cases line with
      | none => simpa [specStartChanges] using ih k
      | some ev =>
          cases ev with
          | insnExec pc bytes disasm regs =>
              simp [specStartChanges, List.filter_cons, isStartC_start_flags, ih]
          | init => simpa [specStartChanges] using ih (k + 1)
          | memAccess vaddr is_store value =>
              simpa [specStartChanges] using ih (k + 1)
          | exitEvent => simpa [specStartChanges] using ih (k + 1)

lemma specStartChanges_length (l : List (Option TraceEvent)) :
    ∀ k, (specStartChanges k l).length = insnExecCount l := by
  induction l with
  | nil => intro k; rfl
  | cons line rest ih =>
      intro k
      cases line with
      | none => simpa [specStartChanges, insnExecCount] using ih k
      | some ev =>
          cases ev with
          | insnExec pc bytes disasm regs =>
              simp only [specStartChanges, List.length_cons, insnExecCount,
                List.filter_cons]
              simp [insnExecCount] at ih
              simp [ih]
          | init => simpa [specStartChanges, insnExecCount] using ih (k + 1)
          | memAccess vaddr is_store value =>
              simpa [specStartChanges, insnExecCount] using ih (k + 1)
          | exitEvent => simpa [specStartChanges, insnExecCount] using ih (k + 1)

/-- C5 (amended): starting from a fresh server, ingesting a finite stream
whose successfully parsed lines include N `InsnExec` events (malformed lines
are skipped without consuming a clnum) leaves the change log with exactly N
START changes, one per `InsnExec` in receipt order, each carrying the clnum
assigned by the event counter — but `max_clnum` equals the number of
successfully parsed events of every kind (`Init`, `Exit` and `MemAccess` also
consume clnums), which exceeds N whenever such events are present.
(Hypothesis: fewer than 2^32 parsed events, so the u32 counter cannot wrap.) -/
theorem claim_C5_ingest_start_changes (reg_count : Nat)
    (lines : List (Option TraceEvent)) (hn : parsedCount lines < U32MOD) :
    (ingestStream (ServerState.initial reg_count) lines).max_clnum =
      parsedCount lines ∧
    (ingestStream (ServerState.initial reg_count) lines).db.changes.filter isStartC =
      specStartChanges 0 lines ∧
    ((ingestStream (ServerState.initial reg_count) lines).db.changes.filter
        isStartC).length = insnExecCount lines := by
  obtain ⟨h1, h2, h3⟩ := ingestStream_inv lines (ServerState.initial reg_count)
    rfl (by simpa [ServerState.initial] using hn)
  refine ⟨by simpa [ServerState.initial] using h2, ?_, ?_⟩
  · rw [h3]
    simp only [ServerState.initial, TraceDB.new, List.nil_append]
    exact specStartChanges_filter lines 0
  · rw [h3]
    simp only [ServerState.initial, TraceDB.new, List.nil_append]
    rw [specStartChanges_filter lines 0]
    exact specStartChanges_length lines 0

/-- C5 counterexample: the stream `[Init, InsnExec]` has N = 1 instruction
events but ends with max_clnum = 2 — the `Init` event also consumed a clnum,
refuting `max_clnum = N` in the presence of other event kinds. -/
theorem claim_C5_counterexample :
    (ingestStream (ServerState.initial 16)
        [some .init, some (.insnExec 0 [] none [])]).max_clnum = 2 ∧
    insnExecCount [some .init, some (.insnExec 0 [] none [])] = 1 := by
  constructor
  · decide
  · decide

/-- Witness for C5 on a concrete stream: one InsnExec followed by a malformed
line; max_clnum = 1 and one START change at clnum 1. -/
theorem claim_C5_witness :
    ((ingestStream (ServerState.initial 16)
        [some (.insnExec 4096 [144] none []), none]).max_clnum =
      parsedCount [some (.insnExec 4096 [144] none []), none] ∧
    (ingestStream (ServerState.initial 16)
        [some (.insnExec 4096 [144] none []), none]).db.changes.filter isStartC =
      specStartChanges 0 [some (.insnExec 4096 [144] none []), none] ∧
    ((ingestStream (ServerState.initial 16)
        [some (.insnExec 4096 [144] none []), none]).db.changes.filter
        isStartC).length =
      insnExecCount [some (.insnExec 4096 [144] none []), none]) ∧
    parsedCount [some (.insnExec 4096 [144] none []), none] = 1 :=
  ⟨claim_C5_ingest_start_changes 16 [some (.insnExec 4096 [144] none []), none]
      (by decide),
   by decide⟩

/-- Taint state of the backwards slicer: the `tainted_regs` and `tainted_mem`
hash sets (db.rs lines 488-489). -/
structure Taint where
  regs : Finset Nat
  mem : Finset Nat
deriving DecidableEq

/-- Change test for the WRITE flag. -/
def isWriteC (ch : Change) : Bool := hasFlag ch.flags IS_WRITE

/-- Change test for the MEM flag. -/
def isMemC (ch : Change) : Bool := hasFlag ch.flags IS_MEM

/-- Register index derived from a register change: `address / 8`. -/
def regIdxOf (ch : Change) : Nat := ch.address / 8

/-- Does this change write a currently tainted location?  (the per-change test
of the group scan, db.rs lines 536-551). -/
def hitsTaint (t : Taint) (ch : Change) : Bool :=
  isWriteC ch &&
    (if isMemC ch then decide (ch.address ∈ t.mem)
     else decide (regIdxOf ch ∈ t.regs))

/-- A group is relevant when some write in it hits the taint set. -/
def groupRelevant (t : Taint) (g : List Change) : Bool := g.any (hitsTaint t)

/-- Taint-set update for a relevant group (db.rs lines 554-589): remove the
tainted locations that were written, then add the group's memory reads and
the instruction's register reads.  `reads` abstracts db.rs lines 566-589 (pc
extraction, instruction-byte or reconstructed-memory fetch, and the
`get_read_registers` call into the external capstone backend): it receives
the group's clnum and the group and yields the extracted register indices.
The theorems below hold for every such function. -/
def taintStep (reads : Nat → List Change → List Nat) (clnum : Nat)
    (g : List Change) (t : Taint) : Taint :=
  let regs1 := (g.filter (fun ch =>
      isWriteC ch && !isMemC ch && decide (regIdxOf ch ∈ t.regs))).foldl
    (fun s ch => s.erase (regIdxOf ch)) t.regs
  let mem1 := (g.filter (fun ch =>
      isWriteC ch && isMemC ch && decide (ch.address ∈ t.mem))).foldl
    (fun s ch => s.erase ch.address) t.mem
  let mem2 := (g.filter (fun ch => isMemC ch && !isWriteC ch)).foldl
    (fun s ch => insert ch.address s) mem1
  let regs2 := (reads clnum g).foldl (fun s r => insert r s) regs1
  ⟨regs2, mem2⟩

/-- Hex-digit value for `from_str_radix(_, 16)`. -/
def hexCharVal (ch : Char) : Nat :=
  if decide ('0' ≤ ch) && decide (ch ≤ '9') then ch.toNat - 48
  else if decide ('a' ≤ ch) && decide (ch ≤ 'f') then ch.toNat - 87
  else ch.toNat - 55

/-- Model of Rust `u64::from_str_radix(s, 16)`: an optional leading `+`, then
at least one hex digit and nothing else, with the value below 2^64
(overflow is an error, as is a leading `-` for an unsigned type). -/
def fromStrRadix16 (s : String) : Option Nat :=
  let chars := s.data
  let digits := if chars.head? = some '+' then chars.tail else chars
  if digits = [] then none
  else if digits.all isHexDigitChar then
    let v := digits.foldl (fun acc ch => acc * 16 + hexCharVal ch) 0
    if v < 2 ^ 64 then some v else none
  else none

/-- The register mnemonic table of `get_slice` (db.rs lines 496-501), looked
up after lowercasing the target. -/
def regNameIndex (s : String) : Option Nat :=
  if s = "rax" then some 0 else if s = "rbx" then some 1
  else if s = "rcx" then some 2 else if s = "rdx" then some 3
  else if s = "rsi" then some 4 else if s = "rdi" then some 5
  else if s = "rbp" then some 6 else if s = "rsp" then some 7
  else if s = "r8" then some 8 else if s = "r9" then some 9
  else if s = "r10" then some 10 else if s = "r11" then some 11
  else if s = "r12" then some 12 else if s = "r13" then some 13
  else if s = "r14" then some 14 else if s = "r15" then some 15
  else none

/-- Model of `str::starts_with` as a structural character-list test. -/
def strStartsWith (s pat : String) : Bool := pat.data.isPrefixOf s.data

/-- Model of `str::to_lowercase` as a per-character map (the register
mnemonics are ASCII, where the two functions agree). -/
def strToLower (s : String) : String := ⟨s.data.map Char.toLower⟩

/-- Seeding of the taint sets from the target string (db.rs lines 491-505):
a `0x`-prefixed parseable hex literal taints one memory byte, a recognized
register mnemonic (after lowercasing) taints one register, anything else
taints nothing. -/
def seedTaint (target : String) : Taint :=
  if strStartsWith target "0x" then
    match fromStrRadix16 (target.drop 2) with
    | some addr => ⟨∅, {addr}⟩
    | none => ⟨∅, ∅⟩
  else
    match regNameIndex (strToLower target) with
    | some idx => ⟨{idx}, ∅⟩
    | none => ⟨∅, ∅⟩

/-- Loop state of `TraceDB::get_slice` (db.rs lines 508-512): taint sets, the
`processed_clnum` marker (sentinel u32::MAX), the current group accumulator,
and the slice in push order (reversed only at the very end). -/
structure SliceSt where
  taint : Taint
  processed : Nat
  current : List Change
  slice : List Nat

/-- The reverse-iteration loop of `TraceDB::get_slice` (db.rs lines 523-600)
as a recursion over the reversed change log: skip changes newer than the
start clnum; on a clnum boundary with a nonempty accumulated group and a
non-sentinel marker, test the group against the taint set, record its clnum
and update the taint sets when relevant, and stop when the taint sets become
empty; otherwise keep accumulating. -/
def sliceLoop (reads : Nat → List Change → List Nat) (start_clnum : Nat) :
    List Change → SliceSt → SliceSt
  | [], st => st
  | ch :: rest, st =>
      if ch.clnum > start_clnum then sliceLoop reads start_clnum rest st
      else if ch.clnum ≠ st.processed then
        if st.current ≠ [] ∧ st.processed ≠ U32MAX then
          let rel := groupRelevant st.taint st.current
          let t' := if rel then taintStep reads st.processed st.current st.taint
                    else st.taint
          let slice' := if rel then st.slice ++ [st.processed] else st.slice
          if t'.regs = ∅ ∧ t'.mem = ∅ then ⟨t', st.processed, [], slice'⟩
          else sliceLoop reads start_clnum rest ⟨t', ch.clnum, [ch], slice'⟩
        else
          sliceLoop reads start_clnum rest
            { st with processed := ch.clnum, current := st.current ++ [ch] }
      else
        sliceLoop reads start_clnum rest { st with current := st.current ++ [ch] }

/-- `TraceDB::get_slice` (db.rs lines 487-630): seed the taint sets from the
target, run the reverse loop, run the trailing last-group handler (which only
tests relevance and pushes the clnum, db.rs lines 601-626), and reverse the
slice to chronological order. -/
def TraceDB.get_slice (reads : Nat → List Change → List Nat) (db : TraceDB)
    (start_clnum : Nat) (target : String) : List Nat :=
  let st0 : SliceSt := ⟨seedTaint target, U32MAX, [], []⟩
  let st := sliceLoop reads start_clnum db.changes.reverse st0
  let slice :=
    if st.current ≠ [] ∧ st.processed ≠ U32MAX then
      if groupRelevant st.taint st.current then st.slice ++ [st.processed]
      else st.slice
    else st.slice
  slice.reverse

/-- Ghost-annotated loop state: identical to `SliceSt` except that each slice
entry also records the taint state at the moment its group was found
relevant. -/
structure SliceStA where
  taint : Taint
  processed : Nat
  current : List Change
  slice : List (Nat × Taint)

/-- The loop of `get_slice` with ghost taint annotations on the slice; it
performs exactly the transitions of `sliceLoop`. -/
def sliceLoopA (reads : Nat → List Change → List Nat) (start_clnum : Nat) :
    List Change → SliceStA → SliceStA
  | [], st => st
  | ch :: rest, st =>
      if ch.clnum > start_clnum then sliceLoopA reads start_clnum rest st
      else if ch.clnum ≠ st.processed then
        if st.current ≠ [] ∧ st.processed ≠ U32MAX then
          let rel := groupRelevant st.taint st.current
          let t' := if rel then taintStep reads st.processed st.current st.taint
                    else st.taint
          let slice' := if rel then st.slice ++ [(st.processed, st.taint)]
                        else st.slice
          if t'.regs = ∅ ∧ t'.mem = ∅ then ⟨t', st.processed, [], slice'⟩
          else sliceLoopA reads start_clnum rest ⟨t', ch.clnum, [ch], slice'⟩
        else
          sliceLoopA reads start_clnum rest
            { st with processed := ch.clnum, current := st.current ++ [ch] }
      else
        sliceLoopA reads start_clnum rest { st with current := st.current ++ [ch] }

/-- The clnums of `get_slice` annotated with the taint state at the moment
each one was recorded (chronological order, like `get_slice`). -/
def sliceTrace (reads : Nat → List Change → List Nat) (db : TraceDB)
    (start_clnum : Nat) (target : String) : List (Nat × Taint) :=
  let st0 : SliceStA := ⟨seedTaint target, U32MAX, [], []⟩
  let st := sliceLoopA reads start_clnum db.changes.reverse st0
  let slice :=
    if st.current ≠ [] ∧ st.processed ≠ U32MAX then
      if groupRelevant st.taint st.current then st.slice ++ [(st.processed, st.taint)]
      else st.slice
    else st.slice
  slice.reverse

/-- Forget the ghost annotations. -/
def eraseA (st : SliceStA) : SliceSt :=
  ⟨st.taint, st.processed, st.current, st.slice.map Prod.fst⟩

lemma sliceLoop_eraseA (reads : Nat → List Change → List Nat)
    (start_clnum : Nat) :
    ∀ (l : List Change) (st : SliceStA),
      sliceLoop reads start_clnum l (eraseA st) =
        eraseA (sliceLoopA reads start_clnum l st) := by
  intro l
  induction l with
  | nil => intro st; rfl
  | cons ch rest ih =>
      intro st
      simp only [sliceLoop, sliceLoopA, eraseA]
      by_cases h1 : ch.clnum > start_clnum
      · simp only [if_pos h1]
        exact ih st
      · simp only [if_neg h1]
        by_cases h2 : ch.clnum ≠ st.processed
        · simp only [if_pos h2]
          by_cases h3 : st.current ≠ [] ∧ st.processed ≠ U32MAX
          · simp only [if_pos h3]
            by_cases hrel : groupRelevant st.taint st.current
            · simp only [hrel, if_true]
              have hmap : List.map Prod.fst st.slice ++ [st.processed] =
                  List.map Prod.fst (st.slice ++ [(st.processed, st.taint)]) := by
                simp
              rw [hmap]
              by_cases h4 : (taintStep reads st.processed st.current st.taint).regs = ∅ ∧
                  (taintStep reads st.processed st.current st.taint).mem = ∅
              · simp only [if_pos h4]
              · simp only [if_neg h4]
                exact ih ⟨taintStep reads st.processed st.current st.taint, ch.clnum,
                  [ch], st.slice ++ [(st.processed, st.taint)]⟩
            · have hrel' : groupRelevant st.taint st.current = false := by
                simpa using hrel
              simp only [hrel', Bool.false_eq_true, if_false]
              by_cases h4 : st.taint.regs = ∅ ∧ st.taint.mem = ∅
              · rw [if_pos h4, if_pos h4]
              · rw [if_neg h4, if_neg h4]
                exact ih ⟨st.taint, ch.clnum, [ch], st.slice⟩
          · simp only [if_neg h3]
            exact ih { st with processed := ch.clnum, current := st.current ++ [ch] }
        · simp only [if_neg h2]
          exact ih { st with current := st.current ++ [ch] }

lemma groupRelevant_empty (g : List Change) : groupRelevant ⟨∅, ∅⟩ g = false := by
  simp only [groupRelevant, List.any_eq_false]
  intro ch _
  simp [hitsTaint]

lemma sliceLoop_empty_taint (reads : Nat → List Change → List Nat)
    (start_clnum : Nat) :
    ∀ (l : List Change) (st : SliceSt),
      st.taint = ⟨∅, ∅⟩ → st.slice = [] →
      (sliceLoop reads start_clnum l st).taint = ⟨∅, ∅⟩ ∧
      (sliceLoop reads start_clnum l st).slice = [] := by
  intro l
  induction l with
  | nil => intro st h1 h2; exact ⟨h1, h2⟩
  | cons ch rest ih =>
      intro st h1 h2
      simp only [sliceLoop]
      by_cases hskip : ch.clnum > start_clnum
      · simp only [if_pos hskip]
        exact ih st h1 h2
      · simp only [if_neg hskip]
        by_cases hb : ch.clnum ≠ st.processed
        · simp only [if_pos hb]
          by_cases hg : st.current ≠ [] ∧ st.processed ≠ U32MAX
          · simp only [if_pos hg]
            have hrel : groupRelevant st.taint st.current = false := by
              rw [h1]; exact groupRelevant_empty _
            simp only [hrel, Bool.false_eq_true, if_false]
            have hempty : st.taint.regs = ∅ ∧ st.taint.mem = ∅ := by
              rw [h1]; exact ⟨rfl, rfl⟩
            rw [if_pos hempty]
            exact ⟨h1, h2⟩
          · simp only [if_neg hg]
            exact ih _ h1 h2
        · simp only [if_neg hb]
          exact ih _ h1 h2

/-- C8: for every start clnum and every target string that is neither a
recognized register mnemonic (after lowercasing) nor a parseable
`0x`-prefixed hex address literal, `get_slice` returns the empty list for
every database state and every behaviour of the external register-read
extraction — and, being a total function, it raises no error. -/
theorem claim_C8_bad_target_empty_slice (reads : Nat → List Change → List Nat)
    (db : TraceDB) (start_clnum : Nat) (target : String)
    (hreg : regNameIndex (strToLower target) = none)
    (hhex : strStartsWith target "0x" = true →
      fromStrRadix16 (target.drop 2) = none) :
    TraceDB.get_slice reads db start_clnum target = [] := by
  have hseed : seedTaint target = ⟨∅, ∅⟩ := by
    simp only [seedTaint]
    by_cases h : strStartsWith target "0x" = true
    · rw [if_pos h, hhex h]
    · rw [if_neg h, hreg]
  simp only [TraceDB.get_slice, hseed]
  obtain ⟨ht, hs⟩ := sliceLoop_empty_taint reads start_clnum db.changes.reverse
    ⟨⟨∅, ∅⟩, U32MAX, [], []⟩ rfl rfl
  set st := sliceLoop reads start_clnum db.changes.reverse ⟨⟨∅, ∅⟩, U32MAX, [], []⟩
    with hst
  by_cases hg : st.current ≠ [] ∧ st.processed ≠ U32MAX
  · rw [if_pos hg]
    have hrel : groupRelevant st.taint st.current = false := by
      rw [ht]; exact groupRelevant_empty _
    simp [hrel, hs]
  · rw [if_neg hg]
    simp [hs]

/-- Witness for C8: the malformed hex target "0xZZ" (and implicitly an
unknown mnemonic, since it is not in the register table) with a nonempty
change log. -/
theorem claim_C8_witness :
    TraceDB.get_slice (fun _ _ => [])
      { TraceDB.new 16 with changes := [⟨0, 0, 1, 0x40000000⟩] } 5 "0xZZ" = [] :=
  claim_C8_bad_target_empty_slice (fun _ _ => [])
    { TraceDB.new 16 with changes := [⟨0, 0, 1, 0x40000000⟩] } 5 "0xZZ"
    (by decide) (fun _ => by decide)

/-- The changes of `l` carrying clnum `c` — "that clnum's group". -/
def GroupOf (l : List Change) (c : Nat) : List Change :=
  l.filter (fun ch => ch.clnum == c)

lemma filter_clnum_eq_nil {c : Nat} {l : List Change}
    (h : ∀ ch ∈ l, ch.clnum ≠ c) :
    l.filter (fun ch => ch.clnum == c) = [] := by
  rw [List.filter_eq_nil]
  intro ch hch
  simpa using h ch hch

lemma groupRelevant_reverse (t : Taint) (g : List Change) :
    groupRelevant t g.reverse = groupRelevant t g := by
  simp [groupRelevant, List.any_eq_true]

/-- Loop invariant of the slicing recursion: `rl0` is the whole reversed log,
`pre` its already-consumed prefix, `rl` the remainder. -/
def SliceInv (c0 : Nat) (rl0 pre rl : List Change) (st : SliceStA) : Prop :=
  (st.processed = U32MAX → st.current = [] ∧ st.slice = [] ∧
    ∀ ch ∈ pre, c0 < ch.clnum) ∧
  (st.processed ≠ U32MAX →
    st.processed ≤ c0 ∧ st.current ≠ [] ∧
    st.current = pre.filter (fun ch => ch.clnum == st.processed) ∧
    (∀ ch ∈ pre, c0 < ch.clnum ∨ st.processed ≤ ch.clnum) ∧
    (∀ ch ∈ rl, ch.clnum ≤ st.processed)) ∧
  (∀ p ∈ st.slice, p.1 ≤ c0) ∧
  List.Pairwise (fun a b => b.1 < a.1) st.slice ∧
  (st.processed ≠ U32MAX → ∀ p ∈ st.slice, st.processed < p.1) ∧
  (∀ p ∈ st.slice, groupRelevant p.2 (GroupOf rl0 p.1) = true)

/-- What the loop guarantees about its result. -/
def SliceOut (c0 : Nat) (rl0 : List Change) (st : SliceStA) : Prop :=
  (∀ p ∈ st.slice, p.1 ≤ c0) ∧
  List.Pairwise (fun a b => b.1 < a.1) st.slice ∧
  (∀ p ∈ st.slice, groupRelevant p.2 (GroupOf rl0 p.1) = true) ∧
  (st.processed ≠ U32MAX → st.current ≠ [] →
    st.processed ≤ c0 ∧ (∀ p ∈ st.slice, st.processed < p.1) ∧
    st.current = GroupOf rl0 st.processed)

lemma sliceLoopA_inv (reads : Nat → List Change → List Nat) (c0 : Nat)
    (rl0 : List Change)
    (hsort : List.Pairwise (fun a b => b.clnum ≤ a.clnum) rl0)
    (hmax : ∀ ch ∈ rl0, ch.clnum < U32MAX) :
    ∀ (rl pre : List Change) (st : SliceStA),
      rl0 = pre ++ rl →
      SliceInv c0 rl0 pre rl st →
      SliceOut c0 rl0 (sliceLoopA reads c0 rl st) := by
  intro rl
  induction rl with
  | nil =>
      intro pre st hsplit hinv
      obtain ⟨hA, hB, hC, hD, hE, hF⟩ := hinv
      simp only [sliceLoopA]
      refine ⟨hC, hD, hF, ?_⟩
      intro hp _hcur
      obtain ⟨b1, _b2, b3, _b4, _b5⟩ := hB hp
      refine ⟨b1, fun p hp' => hE hp p hp', ?_⟩
      rw [b3, GroupOf, hsplit, List.append_nil]
  | cons ch rest ih =>
      intro pre st hsplit hinv
      obtain ⟨hA, hB, hC, hD, hE, hF⟩ := hinv
      have hsort' : List.Pairwise (fun a b => b.clnum ≤ a.clnum) (pre ++ ch :: rest) := by
        rw [← hsplit]; exact hsort
      have hrl_sorted : List.Pairwise (fun a b => b.clnum ≤ a.clnum) (ch :: rest) :=
        (List.pairwise_append.mp hsort').2.1
      have hrest_le : ∀ ch' ∈ rest, ch'.clnum ≤ ch.clnum :=
        fun ch' h => (List.pairwise_cons.mp hrl_sorted).1 ch' h
      have hch_mem : ch ∈ rl0 := by
        rw [hsplit]; exact List.mem_append_right pre (List.mem_cons_self ch rest)
      have hch_max : ch.clnum < U32MAX := hmax ch hch_mem
      have hsplit' : rl0 = (pre ++ [ch]) ++ rest := by
        rw [hsplit]; simp
      simp only [sliceLoopA]
      by_cases hskip : ch.clnum > c0
      · rw [if_pos hskip]
        apply ih (pre ++ [ch]) st hsplit'
        refine ⟨?_, ?_, hC, hD, hE, hF⟩
        · intro hp
          obtain ⟨a1, a2, a3⟩ := hA hp
          refine ⟨a1, a2, ?_⟩
          intro e he
          rcases List.mem_append.mp he with he | he
          · exact a3 e he
          · rw [List.mem_singleton.mp he]; exact hskip
        · intro hp
          obtain ⟨b1, b2, b3, b4, b5⟩ := hB hp
          refine ⟨b1, b2, ?_, ?_, ?_⟩
          · rw [b3, List.filter_append]
            have hnil : [ch].filter (fun e => e.clnum == st.processed) = [] := by
              apply filter_clnum_eq_nil
              intro e he
              rw [List.mem_singleton.mp he]
              omega
            rw [hnil, List.append_nil]
          · intro e he
            rcases List.mem_append.mp he with he | he
            · exact b4 e he
            · rw [List.mem_singleton.mp he]; exact Or.inl hskip
          · intro e he
            exact b5 e (List.mem_cons_of_mem ch he)
      · rw [if_neg hskip]
        have hchc0 : ch.clnum ≤ c0 := by omega
        by_cases hb : ch.clnum ≠ st.processed
        · rw [if_pos hb]
          by_cases hg : st.current ≠ [] ∧ st.processed ≠ U32MAX
          · rw [if_pos hg]
            obtain ⟨b1, b2, b3, b4, b5⟩ := hB hg.2
            have hch_lt : ch.clnum < st.processed := by
              have := b5 ch (List.mem_cons_self ch rest)
              omega
            have hgrp : st.current = GroupOf rl0 st.processed := by
              have hnil : (ch :: rest).filter (fun e => e.clnum == st.processed) = [] := by
                apply filter_clnum_eq_nil
                intro e he
                rcases List.mem_cons.mp he with he | he
                · rw [he]; omega
                · have := hrest_le e he; omega
              rw [b3, GroupOf, hsplit, List.filter_append, hnil, List.append_nil]
            have hprefilter : pre.filter (fun e => e.clnum == ch.clnum) = [] := by
              apply filter_clnum_eq_nil
              intro e he
              rcases b4 e he with h | h
              · omega
              · omega
            by_cases hrel : groupRelevant st.taint st.current = true
            · simp only [hrel, if_true]
              have hpush_le : ∀ p ∈ st.slice ++ [(st.processed, st.taint)], p.1 ≤ c0 := by
                intro p hp
                rcases List.mem_append.mp hp with hp | hp
                · exact hC p hp
                · rw [List.mem_singleton.mp hp]; exact b1
              have hpush_sorted :
                  List.Pairwise (fun a b => b.1 < a.1)
                    (st.slice ++ [(st.processed, st.taint)]) := by
                rw [List.pairwise_append]
                refine ⟨hD, List.pairwise_singleton _ _, ?_⟩
                intro a ha b hb
                rw [List.mem_singleton.mp hb]
                exact hE hg.2 a ha
              have hpush_rel : ∀ p ∈ st.slice ++ [(st.processed, st.taint)],
                  groupRelevant p.2 (GroupOf rl0 p.1) = true := by
                intro p hp
                rcases List.mem_append.mp hp with hp | hp
                · exact hF p hp
                · rw [List.mem_singleton.mp hp]
                  rw [← hgrp]
                  exact hrel
              have hpush_gt : ∀ p ∈ st.slice ++ [(st.processed, st.taint)],
                  ch.clnum < p.1 := by
                intro p hp
                rcases List.mem_append.mp hp with hp | hp
                · have := hE hg.2 p hp; omega
                · rw [List.mem_singleton.mp hp]; exact hch_lt
              by_cases hbrk : (taintStep reads st.processed st.current st.taint).regs = ∅ ∧
                  (taintStep reads st.processed st.current st.taint).mem = ∅
              · rw [if_pos hbrk]
                exact ⟨hpush_le, hpush_sorted, hpush_rel,
                  fun _ hcur => absurd rfl hcur⟩
              · rw [if_neg hbrk]
                apply ih (pre ++ [ch]) _ hsplit'
                refine ⟨?_, ?_, hpush_le, hpush_sorted, ?_, hpush_rel⟩
                · intro hp
                  have hp' : ch.clnum = U32MAX := hp
                  omega
                · intro _
                  refine ⟨hchc0, by simp, ?_, ?_, ?_⟩
                  · rw [List.filter_append, hprefilter, List.nil_append]
                    simp [List.filter_cons]
                  · intro e he
                    rcases List.mem_append.mp he with he | he
                    · rcases b4 e he with h | h
                      · exact Or.inl h
                      · exact Or.inr (show ch.clnum ≤ e.clnum by omega)
                    · rw [List.mem_singleton.mp he]
                      exact Or.inr le_rfl
                  · exact hrest_le
                · intro _
                  exact hpush_gt
            · have hrel' : groupRelevant st.taint st.current = false := by
                simpa using hrel
              simp only [hrel', Bool.false_eq_true, if_false]
              by_cases hbrk : st.taint.regs = ∅ ∧ st.taint.mem = ∅
              · rw [if_pos hbrk]
                exact ⟨hC, hD, hF, fun _ hcur => absurd rfl hcur⟩
              · rw [if_neg hbrk]
                apply ih (pre ++ [ch]) _ hsplit'
                refine ⟨?_, ?_, hC, hD, ?_, hF⟩
                · intro hp
                  have hp' : ch.clnum = U32MAX := hp
                  omega
                · intro _
                  refine ⟨hchc0, by simp, ?_, ?_, ?_⟩
                  · rw [List.filter_append, hprefilter, List.nil_append]
                    simp [List.filter_cons]
                  · intro e he
                    rcases List.mem_append.mp he with he | he
                    · rcases b4 e he with h | h
                      · exact Or.inl h
                      · exact Or.inr (show ch.clnum ≤ e.clnum by omega)
                    · rw [List.mem_singleton.mp he]
                      exact Or.inr le_rfl
                  · exact hrest_le
                · intro _
                  intro p hp
                  exact Nat.lt_trans hch_lt (hE hg.2 p hp)
          · rw [if_neg hg]
            have hpmax : st.processed = U32MAX := by
              by_cases hp : st.processed = U32MAX
              · exact hp
              · exfalso
                obtain ⟨_, b2, _, _, _⟩ := hB hp
                exact hg ⟨b2, hp⟩
            obtain ⟨a1, a2, a3⟩ := hA hpmax
            apply ih (pre ++ [ch]) _ hsplit'
            refine ⟨?_, ?_, hC, hD, ?_, hF⟩
            · intro hp
              have hp' : ch.clnum = U32MAX := hp
              omega
            · intro _
              refine ⟨hchc0, by simp, ?_, ?_, ?_⟩
              · have hprefilter : pre.filter (fun e => e.clnum == ch.clnum) = [] := by
                  apply filter_clnum_eq_nil
                  intro e he
                  have := a3 e he
                  omega
                rw [a1, List.nil_append, List.filter_append, hprefilter,
                  List.nil_append]
                simp [List.filter_cons]
              · intro e he
                rcases List.mem_append.mp he with he | he
                · exact Or.inl (a3 e he)
                · rw [List.mem_singleton.mp he]
                  exact Or.inr le_rfl
              · exact hrest_le
            · intro _ p hp
              have hp' : p ∈ st.slice := hp
              rw [a2] at hp'
              exact absurd hp' (List.not_mem_nil p)
        · rw [if_neg hb]
          have hceq : ch.clnum = st.processed := by
            by_cases h : ch.clnum = st.processed
            · exact h
            · exact absurd h (by simpa using hb)
          have hpne : st.processed ≠ U32MAX := by omega
          obtain ⟨b1, b2, b3, b4, b5⟩ := hB hpne
          apply ih (pre ++ [ch]) _ hsplit'
          refine ⟨?_, ?_, hC, hD, hE, hF⟩
          · intro hp
            exact absurd hp hpne
          · intro _
            refine ⟨b1, by simp, ?_, ?_, ?_⟩
            · rw [b3, List.filter_append]
              congr 1
              simp [List.filter_cons, hceq]
            · intro e he
              rcases List.mem_append.mp he with he | he
              · exact b4 e he
              · rw [List.mem_singleton.mp he]
                exact Or.inr (le_of_eq hceq.symm)
            · intro e he
              exact b5 e (List.mem_cons_of_mem ch he)

/-- C4 (amended): for every start clnum `c0` and target `t`, provided the
change log is sorted by clnum (the documented append-order invariant) and no
change carries clnum = u32::MAX (the loop's internal sentinel value, which
would merge that group into the next one — see the counterexample), the list
returned by `get_slice(c0, t)` consists exactly of the clnums of
`sliceTrace` (the same computation annotated with the taint state at each
recording), is in strictly increasing chronological order, contains only
clnums ≤ c0, and each recorded clnum is one at which some WRITE change of
that clnum's group hits the taint set as it stood when the group was
processed.  This holds for every behaviour of the external register-read
extraction `reads`. -/
theorem claim_C4_slice_properties (reads : Nat → List Change → List Nat)
    (db : TraceDB) (start_clnum : Nat) (target : String)
    (hsorted : List.Pairwise (fun a b => a.clnum ≤ b.clnum) db.changes)
    (hmax : ∀ ch ∈ db.changes, ch.clnum < U32MAX) :
    TraceDB.get_slice reads db start_clnum target =
      (sliceTrace reads db start_clnum target).map Prod.fst ∧
    List.Pairwise (fun a b => a < b)
      (TraceDB.get_slice reads db start_clnum target) ∧
    (∀ c ∈ TraceDB.get_slice reads db start_clnum target, c ≤ start_clnum) ∧
    (∀ p ∈ sliceTrace reads db start_clnum target,
      groupRelevant p.2 (db.changes.filter (fun e => e.clnum == p.1)) = true) := by
  have hsortR : List.Pairwise (fun a b => b.clnum ≤ a.clnum) db.changes.reverse := by
    rw [List.pairwise_reverse]
    exact hsorted
  have hmaxR : ∀ ch ∈ db.changes.reverse, ch.clnum < U32MAX := by
    intro e he
    exact hmax e (List.mem_reverse.mp he)
  have hinv0 : SliceInv start_clnum db.changes.reverse [] db.changes.reverse
      ⟨seedTaint target, U32MAX, [], []⟩ := by
    refine ⟨?_, ?_, ?_, List.Pairwise.nil, ?_, ?_⟩
    · intro _
      exact ⟨rfl, rfl, fun e he => absurd he (List.not_mem_nil e)⟩
    · intro hp
      exact absurd rfl hp
    · intro p hp
      exact absurd hp (List.not_mem_nil p)
    · intro _ p hp
      exact absurd hp (List.not_mem_nil p)
    · intro p hp
      exact absurd hp (List.not_mem_nil p)
  have hout := sliceLoopA_inv reads start_clnum db.changes.reverse hsortR hmaxR
    db.changes.reverse [] ⟨seedTaint target, U32MAX, [], []⟩ (by simp) hinv0
  obtain ⟨o1, o2, o3, o4⟩ := hout
  simp only [TraceDB.get_slice, sliceTrace]
  rw [show (⟨seedTaint target, U32MAX, [], []⟩ : SliceSt) =
      eraseA ⟨seedTaint target, U32MAX, [], []⟩ from rfl, sliceLoop_eraseA]
  set stA := sliceLoopA reads start_clnum db.changes.reverse
    ⟨seedTaint target, U32MAX, [], []⟩ with hstA
  simp only [eraseA]
  have hfinal : ∀ sl : List (Nat × Taint),
      sl = (if stA.current ≠ [] ∧ stA.processed ≠ U32MAX then
        (if groupRelevant stA.taint stA.current then
          stA.slice ++ [(stA.processed, stA.taint)] else stA.slice)
      else stA.slice) →
      (∀ p ∈ sl, p.1 ≤ start_clnum) ∧
      List.Pairwise (fun a b => b.1 < a.1) sl ∧
      (∀ p ∈ sl, groupRelevant p.2 (GroupOf db.changes.reverse p.1) = true) := by
    intro sl hsl
    by_cases hg : stA.current ≠ [] ∧ stA.processed ≠ U32MAX
    · rw [if_pos hg] at hsl
      obtain ⟨q1, q2, q3⟩ := o4 hg.2 hg.1
      by_cases hrel : groupRelevant stA.taint stA.current = true
      · rw [if_pos hrel] at hsl
        subst hsl
        refine ⟨?_, ?_, ?_⟩
        · intro p hp
          rcases List.mem_append.mp hp with hp | hp
          · exact o1 p hp
          · rw [List.mem_singleton.mp hp]
            exact q1
        · rw [List.pairwise_append]
          refine ⟨o2, List.pairwise_singleton _ _, ?_⟩
          intro a ha b hb
          rw [List.mem_singleton.mp hb]
          exact q2 a ha
        · intro p hp
          rcases List.mem_append.mp hp with hp | hp
          · exact o3 p hp
          · rw [List.mem_singleton.mp hp]
            show groupRelevant stA.taint (GroupOf db.changes.reverse stA.processed) = true
            rw [← q3]
            exact hrel
      · rw [if_neg (by simpa using hrel)] at hsl
        subst hsl
        exact ⟨o1, o2, o3⟩
    · rw [if_neg hg] at hsl
      subst hsl
      exact ⟨o1, o2, o3⟩
  obtain ⟨f1, f2, f3⟩ := hfinal _ rfl
  have hcorr :
      (if stA.current ≠ [] ∧ stA.processed ≠ U32MAX then
        (if groupRelevant stA.taint stA.current then
          List.map Prod.fst stA.slice ++ [stA.processed]
        else List.map Prod.fst stA.slice)
      else List.map Prod.fst stA.slice).reverse =
      List.map Prod.fst
        ((if stA.current ≠ [] ∧ stA.processed ≠ U32MAX then
          (if groupRelevant stA.taint stA.current then
            stA.slice ++ [(stA.processed, stA.taint)] else stA.slice)
        else stA.slice).reverse) := by
    by_cases hg : stA.current ≠ [] ∧ stA.processed ≠ U32MAX
    · rw [if_pos hg, if_pos hg]
      by_cases hrel : groupRelevant stA.taint stA.current = true
      · rw [if_pos hrel, if_pos hrel]
        simp
      · rw [if_neg (by simpa using hrel), if_neg (by simpa using hrel)]
        simp
    · rw [if_neg hg, if_neg hg]
      simp
  refine ⟨hcorr, ?_, ?_, ?_⟩
  · rw [hcorr, List.map_reverse, List.pairwise_reverse, List.pairwise_map]
    exact f2
  · intro c hc
    rw [hcorr] at hc
    rcases List.mem_map.mp hc with ⟨p, hp, hfst⟩
    rw [List.mem_reverse] at hp
    rw [← hfst]
    exact f1 p hp
  · intro p hp
    rw [List.mem_reverse] at hp
    have hrel := f3 p hp
    rw [GroupOf, List.filter_reverse, groupRelevant_reverse] at hrel
    exact hrel

/-- C4 counterexample: with a (sorted) log containing a change at
clnum = u32::MAX — the loop's sentinel — that change is merged into the
following group.  Here a write to register 0 at clnum u32::MAX makes clnum 5
be reported in `slice(u32::MAX, "rax")`, yet clnum 5's own group (a write to
register 3) does not intersect the taint set {rax} that the trace records at
the moment of processing, refuting the claim as stated. -/
theorem claim_C4_counterexample :
    TraceDB.get_slice (fun _ _ => [])
      { TraceDB.new 16 with
        changes := [⟨24, 0, 5, 0x40000000⟩, ⟨0, 0, 4294967295, 0x40000000⟩] }
      4294967295 "rax" = [5] ∧
    sliceTrace (fun _ _ => [])
      { TraceDB.new 16 with
        changes := [⟨24, 0, 5, 0x40000000⟩, ⟨0, 0, 4294967295, 0x40000000⟩] }
      4294967295 "rax" = [(5, ⟨{0}, ∅⟩)] ∧
    groupRelevant ⟨{0}, ∅⟩
      ([(⟨24, 0, 5, 0x40000000⟩ : Change), ⟨0, 0, 4294967295, 0x40000000⟩].filter
        (fun e => e.clnum == 5)) = false ∧
    List.Pairwise (fun a b => a.clnum ≤ b.clnum)
      [(⟨24, 0, 5, 0x40000000⟩ : Change), ⟨0, 0, 4294967295, 0x40000000⟩] := by
  refine ⟨?_, ?_, ?_, ?_⟩ <;> decide

/-- Witness for C4 on a sorted two-change log with clnums below u32::MAX:
register write to rax at clnum 1, register write to rbx at clnum 2, target
"rax", start clnum 2; the slice is [1]. -/
theorem claim_C4_witness :
    (TraceDB.get_slice (fun _ _ => [])
      { TraceDB.new 16 with
        changes := [⟨0, 0, 1, 0x40000000⟩, ⟨8, 0, 2, 0x40000000⟩] } 2 "rax" =
      (sliceTrace (fun _ _ => [])
        { TraceDB.new 16 with
          changes := [⟨0, 0, 1, 0x40000000⟩, ⟨8, 0, 2, 0x40000000⟩] } 2
        "rax").map Prod.fst ∧
    List.Pairwise (fun a b => a < b)
      (TraceDB.get_slice (fun _ _ => [])
        { TraceDB.new 16 with
          changes := [⟨0, 0, 1, 0x40000000⟩, ⟨8, 0, 2, 0x40000000⟩] } 2 "rax") ∧
    (∀ c ∈ TraceDB.get_slice (fun _ _ => [])
        { TraceDB.new 16 with
          changes := [⟨0, 0, 1, 0x40000000⟩, ⟨8, 0, 2, 0x40000000⟩] } 2 "rax",
      c ≤ 2) ∧
    (∀ p ∈ sliceTrace (fun _ _ => [])
        { TraceDB.new 16 with
          changes := [⟨0, 0, 1, 0x40000000⟩, ⟨8, 0, 2, 0x40000000⟩] } 2 "rax",
      groupRelevant p.2
        ([(⟨0, 0, 1, 0x40000000⟩ : Change), ⟨8, 0, 2, 0x40000000⟩].filter
          (fun e => e.clnum == p.1)) = true)) ∧
    TraceDB.get_slice (fun _ _ => [])
      { TraceDB.new 16 with
        changes := [⟨0, 0, 1, 0x40000000⟩, ⟨8, 0, 2, 0x40000000⟩] } 2 "rax" = [1] :=
  ⟨claim_C4_slice_properties (fun _ _ => [])
      { TraceDB.new 16 with
        changes := [⟨0, 0, 1, 0x40000000⟩, ⟨8, 0, 2, 0x40000000⟩] } 2 "rax"
      (by decide) (by decide),
   by decide⟩

/-- One rendered instruction of a recovered basic block (il.rs
`Instruction`; the `operation` field is always `Operation::Nop` in cfg.rs and
is omitted). -/
structure Instruction where
  address : Nat
  mnemonic : String
  operands : String
deriving DecidableEq, Repr

/-- A recovered basic block (il.rs `BasicBlock` as constructed by cfg.rs,
which fills only the index and the instruction list). -/
structure BasicBlock where
  index : Nat
  instructions : List Instruction
deriving DecidableEq, Repr

/-- A CFG edge (il.rs `Edge`; head = source index, tail = destination index;
the `condition` field is always `None` in cfg.rs and is omitted). -/
structure Edge where
  head : Nat
  tail : Nat
deriving DecidableEq, Repr

/-- il.rs `ControlFlowGraph`. -/
structure ControlFlowGraph where
  blocks : List BasicBlock
  edges : List Edge
deriving DecidableEq, Repr

/-- `TraceDB::is_user_code` (db.rs lines 175-191): an empty range set means
everything is user code; otherwise the address is normalized by subtracting
the bias in i128 arithmetic truncated to u64, then tested against the
half-open ranges. -/
def TraceDB.is_user_code (db : TraceDB) (address : Nat) : Bool :=
  if db.user_code_ranges = [] then true
  else
    let static_addr := (((address : Int) - db.bias) % (2 ^ 64 : Int)).toNat
    db.user_code_ranges.any (fun r =>
      decide (r.1 ≤ static_addr) && decide (static_addr < r.2))

/-- Skip leading whitespace, then take the first maximal run of
non-whitespace characters: `split_whitespace().next()`. -/
def firstWordChars : List Char → List Char
  | [] => []
  | c :: rest =>
      if c.isWhitespace then firstWordChars rest
      else c :: rest.takeWhile (fun d => !d.isWhitespace)

/-- Structural model of `str::trim`. -/
def strTrimChars (l : List Char) : List Char :=
  ((l.dropWhile (fun c => c.isWhitespace)).reverse.dropWhile
    (fun c => c.isWhitespace)).reverse

/-- Mnemonic and operand extraction of cfg.rs lines 147-149: the first
whitespace-separated token (or `"???"` when there is none), then the slice of
the disassembly after the mnemonic's length, trimmed (byte slicing modelled
as character dropping; the strings are ASCII). -/
def splitDisasm (s : String) : String × String :=
  let w := firstWordChars s.data
  let mnemonic := if w = [] then "???" else String.mk w
  (mnemonic, String.mk (strTrimChars (s.data.drop mnemonic.data.length)))

/-- Insert-if-absent into a list modelling a `HashSet` (only membership and
iteration over the elements are used). -/
def insertIfAbsent {α : Type} [DecidableEq α] (l : List α) (x : α) : List α :=
  if x ∈ l then l else l ++ [x]

/-- Pass 1 of `analyze_cfg` (cfg.rs lines 52-94): the first filtered pc is a
leader; for each consecutive pair, when the transition is not sequential
(with unknown or empty instruction bytes counting as a jump) the successor's
address becomes a leader. -/
def pass1Leaders (instructions : List (Nat × List Nat)) (pcs : List Change) :
    List Nat :=
  match pcs with
  | [] => []
  | c0 :: _ =>
      (pcs.zip pcs.tail).foldl
        (fun starts pair =>
          let isJump :=
            match alookup instructions pair.1.clnum with
            | some bytes =>
                if bytes ≠ [] then
                  decide ((pair.1.address + bytes.length) % 2 ^ 64 ≠ pair.2.address)
                else true
            | none => true
          if isJump then insertIfAbsent starts pair.2.address else starts)
        [c0.address]

/-- Pass 2 of `analyze_cfg` (cfg.rs lines 99-193): walk the filtered pcs
maintaining the open block; close it at known leaders (emitting the
fall-through edge unless this is the very first instruction) and at
non-sequential transitions (emitting the jump edge to the next pc, with
unknown bytes treated as sequential in this pass); record each instruction
into the open block once per address; insert the open block after the walk. -/
def pass2Blocks (instructions : List (Nat × List Nat)) (disasmAt : Nat → String)
    (block_starts : List Nat) :
    List Change → Bool → Nat → List Instruction →
    List (Nat × List Instruction) → List (Nat × Nat) →
    List (Nat × List Instruction) × List (Nat × Nat)
  | [], _isFirst, start, insns, blocks, edges =>
      (ainsert blocks start insns, edges)
  | curr :: rest, isFirst, start, insns, blocks, edges =>
      match
        (if curr.address ∈ block_starts ∧ curr.address ≠ start then
          (ainsert blocks start insns,
           if isFirst then edges else insertIfAbsent edges (start, curr.address),
           curr.address, ([] : List Instruction))
        else (blocks, edges, start, insns)) with
      | (blocks, edges, start, insns) =>
          let md := splitDisasm (disasmAt curr.clnum)
          let isJump :=
            match rest.head? with
            | some next =>
                match alookup instructions curr.clnum with
                | some bytes =>
                    !bytes.isEmpty &&
                      ((curr.address + bytes.length) % 2 ^ 64 != next.address)
                | none => false
            | none => false
          let insns :=
            if insns.any (fun insn => insn.address == curr.address) then insns
            else insns ++ [⟨curr.address, md.1, md.2⟩]
          if isJump then
            match rest.head? with
            | some next =>
                pass2Blocks instructions disasmAt block_starts rest false
                  next.address [] (ainsert blocks start insns)
                  (insertIfAbsent edges (start, next.address))
            | none =>
                pass2Blocks instructions disasmAt block_starts rest false
                  start insns blocks edges
          else
            pass2Blocks instructions disasmAt block_starts rest false
              start insns blocks edges

/-- `TraceDB::analyze_cfg` (cfg.rs lines 6-226).  `disasmAt` abstracts
`get_disassembly_at`, whose text flows only into the mnemonic/operand
strings (it passes through the external capstone backend); the structural
theorems hold for every such function.  The file-logging debug block
(cfg.rs lines 25-49) has no effect on the result and is omitted. -/
def TraceDB.analyze_cfg (db : TraceDB) (disasmAt : Nat → String)
    (only_user_code : Bool) : ControlFlowGraph :=
  let pc_changes := (db.changes.filter (fun c => isStartC c)).filter
    (fun c => !only_user_code || db.is_user_code c.address)
  match pc_changes with
  | [] => ⟨[], []⟩
  | c0 :: _ =>
      let block_starts := pass1Leaders db.instructions pc_changes
      let fin := pass2Blocks db.instructions disasmAt block_starts pc_changes
        true c0.address [] [] []
      let sorted_starts := (fin.1.map Prod.fst).mergeSort (· ≤ ·)
      let nodes := sorted_starts.enum.map (fun p =>
        (⟨p.1, (alookup fin.1 p.2).getD []⟩ : BasicBlock))
      let graph_edges := fin.2.filterMap (fun e =>
        match List.indexOf? e.1 sorted_starts, List.indexOf? e.2 sorted_starts with
        | some h, some t => some (⟨h, t⟩ : Edge)
        | _, _ => none)
      ⟨nodes, graph_edges⟩

lemma findIdx?_lt_length_aux {α : Type} (p : α → Bool) :
    ∀ (l : List α) (s i : Nat), List.findIdx? p l s = some i → i < s + l.length := by
  intro l
  induction l with
  | nil => intro s i h; simp [List.findIdx?] at h
  | cons a as ih =>
      intro s i h
      rw [List.findIdx?] at h
      by_cases hp : p a
      · rw [if_pos hp] at h
        cases h
        simp
      · rw [if_neg hp] at h
        have := ih (s + 1) i h
        simp only [List.length_cons]
        omega

lemma indexOf?_lt_length {α : Type} [BEq α] {a : α} {l : List α} {i : Nat}
    (h : List.indexOf? a l = some i) : i < l.length := by
  have h' : List.findIdx? (fun x => x == a) l 0 = some i := h
  have := findIdx?_lt_length_aux (fun x => x == a) l 0 i h'
  omega

lemma mem_keys_ainsert {α : Type} (m : List (Nat × α)) (k : Nat) (v : α) (x : Nat)
    (h : x ∈ (ainsert m k v).map Prod.fst) : x ∈ m.map Prod.fst ∨ x = k := by
  induction m with
  | nil =>
      simp only [ainsert, List.map_cons, List.map_nil, List.mem_singleton] at h
      exact Or.inr h
  | cons p rest ih =>
      obtain ⟨k', v'⟩ := p
      by_cases hk : (k' == k) = true
      · simp only [ainsert, hk, if_true, List.map_cons, List.mem_cons] at h
        rcases h with h | h
        · exact Or.inl (by rw [List.map_cons, h]; exact List.mem_cons_self _ _)
        · exact Or.inl (by rw [List.map_cons]; exact List.mem_cons_of_mem _ h)
      · simp only [ainsert, hk, Bool.false_eq_true, if_false, List.map_cons,
          List.mem_cons] at h
        rcases h with h | h
        · exact Or.inl (by rw [List.map_cons, h]; exact List.mem_cons_self _ _)
        · rcases ih h with h' | h'
          · exact Or.inl (by rw [List.map_cons]; exact List.mem_cons_of_mem _ h')
          · exact Or.inr h'

lemma ainsert_keys_nodup {α : Type} (m : List (Nat × α)) (k : Nat) (v : α)
    (h : (m.map Prod.fst).Nodup) : ((ainsert m k v).map Prod.fst).Nodup := by
  induction m with
  | nil => simp [ainsert]
  | cons p rest ih =>
      obtain ⟨k', v'⟩ := p
      simp only [List.map_cons, List.nodup_cons] at h
      by_cases hk : (k' == k) = true
      · simp only [ainsert, hk, if_true, List.map_cons, List.nodup_cons]
        exact h
      · simp only [ainsert, hk, Bool.false_eq_true, if_false, List.map_cons,
          List.nodup_cons]
        refine ⟨?_, ih h.2⟩
        intro hmem
        rcases mem_keys_ainsert rest k v k' hmem with h' | h'
        · exact h.1 h'
        · exact hk (by simp [h'])

lemma mem_ainsert {α : Type} (m : List (Nat × α)) (k : Nat) (v : α)
    (kv : Nat × α) (h : kv ∈ ainsert m k v) : kv = (k, v) ∨ kv ∈ m := by
  induction m with
  | nil =>
      simp only [ainsert, List.mem_singleton] at h
      exact Or.inl h
  | cons p rest ih =>
      obtain ⟨k', v'⟩ := p
      by_cases hk : (k' == k) = true
      · simp only [ainsert, hk, if_true, List.mem_cons] at h
        rcases h with h | h
        · have : k' = k := by simpa using hk
          exact Or.inl (by rw [h, this])
        · exact Or.inr (List.mem_cons_of_mem _ h)
      · simp only [ainsert, hk, Bool.false_eq_true, if_false, List.mem_cons] at h
        rcases h with h | h
        · exact Or.inr (by rw [h]; exact List.mem_cons_self _ _)
        · rcases ih h with h' | h'
          · exact Or.inl h'
          · exact Or.inr (List.mem_cons_of_mem _ h')

lemma alookup_mem_keys {α : Type} (m : List (Nat × α)) (a : Nat)
    (h : a ∈ m.map Prod.fst) : ∃ v, alookup m a = some v := by
  induction m with
  | nil => simp at h
  | cons p rest ih =>
      obtain ⟨k', v'⟩ := p
      by_cases hk : k' = a
      · refine ⟨v', ?_⟩
        rw [alookup_cons_pos _ _ _ _ (by simp [hk])]
      · simp only [List.map_cons, List.mem_cons] at h
        rcases h with h | h
        · exact absurd h.symm hk
        · obtain ⟨v, hv⟩ := ih h
          exact ⟨v, by rw [alookup_cons_neg _ _ _ _ (by simp [hk])]; exact hv⟩

/-- Block-map well-formedness: every stored block is nonempty and its first
instruction sits at the block's key address. -/
def BlocksWF (blocks : List (Nat × List Instruction)) : Prop :=
  ∀ kv ∈ blocks, kv.2 ≠ [] ∧ kv.2.head?.map (fun i => i.address) = some kv.1

lemma BlocksWF_ainsert {blocks : List (Nat × List Instruction)}
    {start : Nat} {insns : List Instruction}
    (hb : BlocksWF blocks) (hne : insns ≠ [])
    (hhead : insns.head?.map (fun i => i.address) = some start) :
    BlocksWF (ainsert blocks start insns) := by
  intro kv hkv
  rcases mem_ainsert _ _ _ _ hkv with h | h
  · rw [h]
    exact ⟨hne, hhead⟩
  · exact hb kv h

lemma pushInsn_facts (s : Nat) (l : List Instruction) (x : Instruction)
    (h1 : l ≠ [] → l.head?.map (fun i => i.address) = some s)
    (h2 : l = [] → x.address = s) :
    (if l.any (fun insn => insn.address == x.address) then l else l ++ [x]) ≠ [] ∧
    ((if l.any (fun insn => insn.address == x.address) then l
      else l ++ [x]).head?.map (fun i => i.address)) = some s := by
  by_cases hany : l.any (fun insn => insn.address == x.address) = true
  · rw [if_pos hany]
    have hne : l ≠ [] := by
      intro hnil
      rw [hnil] at hany
      simp at hany
    exact ⟨hne, h1 hne⟩
  · rw [if_neg hany]
    cases l with
    | nil =>
        refine ⟨by simp, ?_⟩
        simp [h2 rfl]
    | cons a as =>
        refine ⟨by simp, ?_⟩
        have := h1 (by simp)
        simpa using this

lemma pass2Blocks_inv (instructions : List (Nat × List Nat))
    (disasmAt : Nat → String) (block_starts : List Nat) :
    ∀ (pcs : List Change) (isFirst : Bool) (start : Nat)
      (insns : List Instruction) (blocks : List (Nat × List Instruction))
      (edges : List (Nat × Nat)),
      BlocksWF blocks →
      (blocks.map Prod.fst).Nodup →
      (insns ≠ [] → insns.head?.map (fun i => i.address) = some start) →
      (insns = [] → pcs.head?.map (fun c => c.address) = some start) →
      (pcs = [] → insns ≠ []) →
      BlocksWF (pass2Blocks instructions disasmAt block_starts pcs isFirst start
        insns blocks edges).1 ∧
      ((pass2Blocks instructions disasmAt block_starts pcs isFirst start
        insns blocks edges).1.map Prod.fst).Nodup := by
  intro pcs
  induction pcs with
  | nil =>
      intro isFirst start insns blocks edges hwf hnodup hh1 _hh2 hne
      simp only [pass2Blocks]
      exact ⟨BlocksWF_ainsert hwf (hne rfl) (hh1 (hne rfl)),
        ainsert_keys_nodup _ _ _ hnodup⟩
  | cons curr rest ih =>
      intro isFirst start insns blocks edges hwf hnodup hh1 hh2 _hne
      simp only [pass2Blocks]
      by_cases hclose : curr.address ∈ block_starts ∧ curr.address ≠ start
      · rw [if_pos hclose]
        have hinsne : insns ≠ [] := by
          intro hnil
          have h := hh2 hnil
          simp only [List.head?_cons, Option.map_some'] at h
          exact hclose.2 (by injection h)
        have hwf' : BlocksWF (ainsert blocks start insns) :=
          BlocksWF_ainsert hwf hinsne (hh1 hinsne)
        have hnodup' := ainsert_keys_nodup blocks start insns hnodup
        have hpush := pushInsn_facts curr.address []
          ⟨curr.address, (splitDisasm (disasmAt curr.clnum)).1,
            (splitDisasm (disasmAt curr.clnum)).2⟩
          (fun h => absurd rfl h) (fun _ => rfl)
        cases rest with
        | nil =>
            exact ih false curr.address _ (ainsert blocks start insns) _
              hwf' hnodup' (fun _ => hpush.2) (fun h => absurd h hpush.1)
              (fun _ => hpush.1)
        | cons next rest' =>
            simp only [List.head?_cons]
            rcases halo : alookup instructions curr.clnum with _ | bytes
            · exact ih false curr.address _ (ainsert blocks start insns) _
                hwf' hnodup' (fun _ => hpush.2) (fun h => absurd h hpush.1)
                (fun h => absurd h (by simp))
            · by_cases hj : (!bytes.isEmpty &&
                  ((curr.address + bytes.length) % 2 ^ 64 != next.address)) = true
              · rw [if_pos hj]
                exact ih false next.address [] _ _
                  (BlocksWF_ainsert hwf' hpush.1 hpush.2)
                  (ainsert_keys_nodup _ _ _ hnodup')
                  (fun h => absurd rfl h) (fun _ => by simp)
                  (fun h => absurd h (by simp))
              · rw [if_neg hj]
                exact ih false curr.address _ (ainsert blocks start insns) _
                  hwf' hnodup' (fun _ => hpush.2) (fun h => absurd h hpush.1)
                  (fun h => absurd h (by simp))
      · rw [if_neg hclose]
        have hpush := pushInsn_facts start insns
          ⟨curr.address, (splitDisasm (disasmAt curr.clnum)).1,
            (splitDisasm (disasmAt curr.clnum)).2⟩
          hh1
          (fun hnil => by
            have h := hh2 hnil
            simp only [List.head?_cons, Option.map_some'] at h
            injection h)
        cases rest with
        | nil =>
            exact ih false start _ blocks edges hwf hnodup
              (fun _ => hpush.2) (fun h => absurd h hpush.1) (fun _ => hpush.1)
        | cons next rest' =>
            simp only [List.head?_cons]
            rcases halo : alookup instructions curr.clnum with _ | bytes
            · exact ih false start _ blocks edges hwf hnodup
                (fun _ => hpush.2) (fun h => absurd h hpush.1)
                (fun h => absurd h (by simp))
            · by_cases hj : (!bytes.isEmpty &&
                  ((curr.address + bytes.length) % 2 ^ 64 != next.address)) = true
              · rw [if_pos hj]
                exact ih false next.address [] _ _
                  (BlocksWF_ainsert hwf hpush.1 hpush.2)
                  (ainsert_keys_nodup _ _ _ hnodup)
                  (fun h => absurd rfl h) (fun _ => by simp)
                  (fun h => absurd h (by simp))
              · rw [if_neg hj]
                exact ih false start _ blocks edges hwf hnodup
                  (fun _ => hpush.2) (fun h => absurd h hpush.1)
                  (fun h => absurd h (by simp))

lemma cfg_assembly_invariants (final_blocks : List (Nat × List Instruction))
    (final_edges : List (Nat × Nat)) (sorted_starts : List Nat)
    (nodes : List BasicBlock) (graph_edges : List Edge)
    (hwf : BlocksWF final_blocks)
    (hnodup : (final_blocks.map Prod.fst).Nodup)
    (hss : sorted_starts = (final_blocks.map Prod.fst).mergeSort (· ≤ ·))
    (hn : nodes = sorted_starts.enum.map (fun p =>
      (⟨p.1, (alookup final_blocks p.2).getD []⟩ : BasicBlock)))
    (hg : graph_edges = final_edges.filterMap (fun e =>
      match List.indexOf? e.1 sorted_starts, List.indexOf? e.2 sorted_starts with
      | some h, some t => some (⟨h, t⟩ : Edge)
      | _, _ => none)) :
    (∀ e ∈ graph_edges, e.head < nodes.length ∧ e.tail < nodes.length) ∧
    (∀ i (h : i < nodes.length), (nodes.get ⟨i, h⟩).index = i) ∧
    List.Pairwise (fun a b => a < b)
      (nodes.map (fun b =>
        (b.instructions.head?.map (fun ins => ins.address)).getD 0)) ∧
    (∀ b ∈ nodes, b.instructions ≠ []) := by
  have hlen : nodes.length = sorted_starts.length := by
    rw [hn, List.length_map, List.enum_length]
  have hmem_block : ∀ a ∈ sorted_starts, ∃ v, alookup final_blocks a = some v ∧
      v ≠ [] ∧ v.head?.map (fun i => i.address) = some a := by
    intro a ha
    rw [hss, List.mem_mergeSort] at ha
    obtain ⟨v, hv⟩ := alookup_mem_keys final_blocks a ha
    have hmem := alookup_mem final_blocks a v hv
    obtain ⟨h1, h2⟩ := hwf (a, v) hmem
    exact ⟨v, hv, h1, h2⟩
  refine ⟨?_, ?_, ?_, ?_⟩
  · intro e he
    rw [hg] at he
    rcases List.mem_filterMap.mp he with ⟨a, _ha, hfa⟩
    rcases h1 : List.indexOf? a.1 sorted_starts with _ | hidx
    · rw [h1] at hfa
      rcases List.indexOf? a.2 sorted_starts with _ | _ <;> simp at hfa
    · rcases h2 : List.indexOf? a.2 sorted_starts with _ | tidx
      · rw [h1, h2] at hfa
        simp at hfa
      · rw [h1, h2] at hfa
        have he' : e = ⟨hidx, tidx⟩ := by
          injection hfa with h
          exact h.symm
        rw [he', hlen]
        exact ⟨indexOf?_lt_length h1, indexOf?_lt_length h2⟩
  · intro i h
    subst hn
    simp only [List.get_eq_getElem, List.getElem_map, List.getElem_enum]
  · have hmapaddr : nodes.map (fun b =>
        (b.instructions.head?.map (fun ins => ins.address)).getD 0) =
        sorted_starts := by
      rw [hn, List.map_map]
      have hcong : ∀ p ∈ sorted_starts.enum,
          ((fun b : BasicBlock =>
            (b.instructions.head?.map (fun ins => ins.address)).getD 0) ∘
           (fun p : Nat × Nat =>
            (⟨p.1, (alookup final_blocks p.2).getD []⟩ : BasicBlock))) p =
          Prod.snd p := by
        intro p hp
        have hp2 : p.2 ∈ sorted_starts := by
          have := List.mem_map_of_mem Prod.snd hp
          rwa [List.enum_map_snd] at this
        obtain ⟨v, hv, _h1, h2⟩ := hmem_block p.2 hp2
        simp only [Function.comp_apply, hv, Option.getD_some]
        rw [h2]
        rfl
      rw [List.map_congr_left hcong, List.enum_map_snd]
    rw [hmapaddr]
    have hsorted_le : List.Pairwise (fun a b : Nat => a ≤ b) sorted_starts := by
      rw [hss]
      have := @List.sorted_mergeSort Nat (fun a b : Nat => decide (a ≤ b))
        (fun a b c hab hbc => by
          simp only [decide_eq_true_eq] at hab hbc ⊢
          omega)
        (fun a b => by
          simp only [Bool.or_eq_true, decide_eq_true_eq]
          omega)
        (final_blocks.map Prod.fst)
      exact this.imp (fun h => by simpa using h)
    have hnodup_ss : sorted_starts.Nodup := by
      rw [hss]
      exact (List.mergeSort_perm (final_blocks.map Prod.fst) _).nodup_iff.mpr hnodup
    exact (hsorted_le.and hnodup_ss).imp
      (fun h => lt_of_le_of_ne h.1 h.2)
  · intro b hb
    rw [hn] at hb
    rcases List.mem_map.mp hb with ⟨p, hp, hpb⟩
    have hp2 : p.2 ∈ sorted_starts := by
      have := List.mem_map_of_mem Prod.snd hp
      rwa [List.enum_map_snd] at this
    obtain ⟨v, hv, h1, _h2⟩ := hmem_block p.2 hp2
    rw [← hpb]
    simp only [hv, Option.getD_some]
    exact h1

/-- **C6.** `analyze_cfg` recovers a well-formed control-flow graph, for
every disassembly backend and both values of `only_user_code`: every edge's
head and tail index an existing block; block indices are dense, equal to the
block's position in the list; blocks are sorted in strictly increasing order
of their first instruction's address; every block is nonempty; and with no
START changes surviving the user-code filter the graph is empty (no
synthetic entry block).  The spec's further claim that each traced address
appears in exactly one block is false: when a jump target falls inside an
already-traced instruction span, the fall-through address is recorded in two
distinct blocks (see the counterexample). -/
theorem claim_C6_cfg_invariants (db : TraceDB) (disasmAt : Nat → String)
    (only_user_code : Bool) :
    (∀ e ∈ (db.analyze_cfg disasmAt only_user_code).edges,
      e.head < (db.analyze_cfg disasmAt only_user_code).blocks.length ∧
      e.tail < (db.analyze_cfg disasmAt only_user_code).blocks.length) ∧
    (∀ i (h : i < (db.analyze_cfg disasmAt only_user_code).blocks.length),
      ((db.analyze_cfg disasmAt only_user_code).blocks.get ⟨i, h⟩).index = i) ∧
    List.Pairwise (fun a b => a < b)
      ((db.analyze_cfg disasmAt only_user_code).blocks.map (fun b =>
        (b.instructions.head?.map (fun ins => ins.address)).getD 0)) ∧
    (∀ b ∈ (db.analyze_cfg disasmAt only_user_code).blocks,
      b.instructions ≠ []) ∧
    ((db.changes.filter (fun c => isStartC c)).filter
        (fun c => !only_user_code || db.is_user_code c.address) = [] →
      db.analyze_cfg disasmAt only_user_code = ⟨[], []⟩) := by
  cases hpcs : (db.changes.filter (fun c => isStartC c)).filter
      (fun c => !only_user_code || db.is_user_code c.address) with
  | nil =>
      have hg : db.analyze_cfg disasmAt only_user_code = ⟨[], []⟩ := by
        simp only [TraceDB.analyze_cfg, hpcs]
      rw [hg]
      refine ⟨?_, ?_, ?_, ?_, fun _ => rfl⟩
      · intro e he
        cases he
      · intro i h
        simp at h
      · simp
      · intro b hb
        cases hb
  | cons c0 rest =>
      have hinv := pass2Blocks_inv db.instructions disasmAt
        (pass1Leaders db.instructions (c0 :: rest)) (c0 :: rest) true c0.address
        [] [] []
        (fun p hp => absurd hp (List.not_mem_nil p))
        List.nodup_nil
        (fun h => absurd rfl h)
        (fun _ => rfl)
        (fun h => absurd h (List.cons_ne_nil c0 rest))
      have hasm := cfg_assembly_invariants
        (pass2Blocks db.instructions disasmAt
          (pass1Leaders db.instructions (c0 :: rest)) (c0 :: rest) true
          c0.address [] [] []).1
        (pass2Blocks db.instructions disasmAt
          (pass1Leaders db.instructions (c0 :: rest)) (c0 :: rest) true
          c0.address [] [] []).2
        (((pass2Blocks db.instructions disasmAt
          (pass1Leaders db.instructions (c0 :: rest)) (c0 :: rest) true
          c0.address [] [] []).1.map Prod.fst).mergeSort (· ≤ ·))
        _ _ hinv.1 hinv.2 rfl rfl rfl
      have hg : db.analyze_cfg disasmAt only_user_code =
          ⟨(((pass2Blocks db.instructions disasmAt
              (pass1Leaders db.instructions (c0 :: rest)) (c0 :: rest) true
              c0.address [] [] []).1.map Prod.fst).mergeSort
                (· ≤ ·)).enum.map (fun p =>
            (⟨p.1, (alookup (pass2Blocks db.instructions disasmAt
              (pass1Leaders db.instructions (c0 :: rest)) (c0 :: rest) true
              c0.address [] [] []).1 p.2).getD []⟩ : BasicBlock)),
           (pass2Blocks db.instructions disasmAt
              (pass1Leaders db.instructions (c0 :: rest)) (c0 :: rest) true
              c0.address [] [] []).2.filterMap (fun e =>
            match
              List.indexOf? e.1
                (((pass2Blocks db.instructions disasmAt
                  (pass1Leaders db.instructions (c0 :: rest)) (c0 :: rest) true
                  c0.address [] [] []).1.map Prod.fst).mergeSort (· ≤ ·)),
              List.indexOf? e.2
                (((pass2Blocks db.instructions disasmAt
                  (pass1Leaders db.instructions (c0 :: rest)) (c0 :: rest) true
                  c0.address [] [] []).1.map Prod.fst).mergeSort (· ≤ ·)) with
            | some h, some t => some (⟨h, t⟩ : Edge)
            | _, _ => none)⟩ := by
        simp only [TraceDB.analyze_cfg, hpcs]
      rw [hg]
      exact ⟨hasm.1, hasm.2.1, hasm.2.2.1, hasm.2.2.2,
        fun hcon => absurd (hpcs ▸ hcon) (List.cons_ne_nil c0 rest)⟩

/-- A four-instruction trace in which the jump at clnum 2 targets address
0x1001, inside the span of the instruction traced at 0x1000; both the block
starting at 0x1000 and the block starting at 0x1001 then fall through to and
record the instruction at 0x1004. -/
def cfgCounterDB : TraceDB :=
  { TraceDB.new 16 with
    changes :=
      [⟨0x1000, 0, 1, IS_VALID ||| IS_START⟩,
       ⟨0x1004, 0, 2, IS_VALID ||| IS_START⟩,
       ⟨0x1001, 0, 3, IS_VALID ||| IS_START⟩,
       ⟨0x1004, 0, 4, IS_VALID ||| IS_START⟩],
    instructions :=
      [(1, [1, 1, 1, 1]), (2, [2, 2]), (3, [3, 3, 3]), (4, [2, 2])] }

/-- The final blocks/edges accumulator of `analyze_cfg` on `cfgCounterDB`
(with `only_user_code = false` the two filters keep all four START changes). -/
def cfgCounterFin : List (Nat × List Instruction) × List (Nat × Nat) :=
  pass2Blocks cfgCounterDB.instructions (fun _ => "")
    (pass1Leaders cfgCounterDB.instructions
      ((cfgCounterDB.changes.filter (fun c => isStartC c)).filter
        (fun c => !false || cfgCounterDB.is_user_code c.address)))
    ((cfgCounterDB.changes.filter (fun c => isStartC c)).filter
      (fun c => !false || cfgCounterDB.is_user_code c.address))
    true 0x1000 [] [] []

/-- **C6 counterexample.** On `cfgCounterDB` the recovered CFG has two
blocks, with instruction address lists `[0x1000, 0x1004]` and
`[0x1001, 0x1004]`: address 0x1004 appears in two distinct blocks, refuting
the claim's "no instruction address appears in two distinct blocks". -/
theorem claim_C6_counterexample :
    (cfgCounterDB.analyze_cfg (fun _ => "") false).blocks.map
      (fun b => b.instructions.map (fun ins => ins.address)) =
      [[0x1000, 0x1004], [0x1001, 0x1004]] ∧
    ((cfgCounterDB.analyze_cfg (fun _ => "") false).blocks.countP
      (fun b => b.instructions.any (fun ins => ins.address == 0x1004))) = 2 := by
  have hmap : cfgCounterFin.1.map Prod.fst = [0x1000, 0x1001] := by decide
  have hms : (cfgCounterFin.1.map Prod.fst).mergeSort (· ≤ ·) =
      [0x1000, 0x1001] := by
    rw [hmap]
    simp [List.mergeSort]
  have hg : (cfgCounterDB.analyze_cfg (fun _ => "") false).blocks =
      ((cfgCounterFin.1.map Prod.fst).mergeSort (· ≤ ·)).enum.map (fun p =>
        (⟨p.1, (alookup cfgCounterFin.1 p.2).getD []⟩ : BasicBlock)) := rfl
  rw [hg, hms]
  decide

/-- **C6 witness.** The invariants instantiated on the concrete store
`cfgCounterDB` with an empty-text backend and `only_user_code = false`. -/
theorem claim_C6_witness :
    (∀ e ∈ (cfgCounterDB.analyze_cfg (fun _ => "") false).edges,
      e.head < (cfgCounterDB.analyze_cfg (fun _ => "") false).blocks.length ∧
      e.tail < (cfgCounterDB.analyze_cfg (fun _ => "") false).blocks.length) ∧
    (∀ i (h : i < (cfgCounterDB.analyze_cfg (fun _ => "") false).blocks.length),
      ((cfgCounterDB.analyze_cfg (fun _ => "") false).blocks.get
        ⟨i, h⟩).index = i) ∧
    List.Pairwise (fun a b => a < b)
      ((cfgCounterDB.analyze_cfg (fun _ => "") false).blocks.map (fun b =>
        (b.instructions.head?.map (fun ins => ins.address)).getD 0)) ∧
    (∀ b ∈ (cfgCounterDB.analyze_cfg (fun _ => "") false).blocks,
      b.instructions ≠ []) ∧
    ((cfgCounterDB.changes.filter (fun c => isStartC c)).filter
        (fun c => !false || cfgCounterDB.is_user_code c.address) = [] →
      cfgCounterDB.analyze_cfg (fun _ => "") false = ⟨[], []⟩) :=
  claim_C6_cfg_invariants cfgCounterDB (fun _ => "") false
